import Mathlib

/-!
Verification of the wizenheimer/wal write-ahead log (Go) against its
natural-language specification.

Shallow embedding conventions:
  - Go byte slices are `List Nat` with every element < 256 where it matters.
  - Go `uint32` / `uint64` values are `Nat`; wrap points (`uint32(len(data))`,
    `lastLSN++`) carry an explicit `% 2^32` / `% 2^64` in the model.
  - Fallible Go code returns `Except WErr`; a Go `panic` is modelled by the
    distinguished error value `WErr.crashed`, which marks exception-like
    non-local control flow as opposed to an ordinary returned error.
  - The filesystem behind `FileSegmentManager` is an association list from
    segment id to the byte content of the file `segment-<id>`.
-/

set_option maxRecDepth 100000

namespace Wal

/-! ## Bytes and little-endian encoding -/

/-- Little-endian byte encoding: `leBytes k n` is the k low-order bytes of n,
least significant first.  `leBytes 8` models Go `binary.Write(h, LittleEndian, lsn)`
for a `uint64`; `leBytes 4` models the `uint32` length prefix. -/
def leBytes : Nat → Nat → List Nat
  | 0, _ => []
  | k + 1, n => n % 256 :: leBytes k (n / 256)

/-- Decode 4 little-endian bytes into a Nat (the reader side of the u32 prefix). -/
def u32ofBytes (b0 b1 b2 b3 : Nat) : Nat :=
  b0 + 256 * (b1 + 256 * (b2 + 256 * b3))

/-! ## CRC-32 (IEEE 802.3), from hash/crc32

The Go standard library computes the IEEE CRC-32 with the reflected polynomial
0xEDB88320, initial value 0xFFFFFFFF and final xor 0xFFFFFFFF.  The model is the
bit-at-a-time definition of that algorithm. -/

/-- One iteration of the reflected CRC-32 shift: shift right, conditionally
xoring the reflected IEEE polynomial. -/
def crcShift (c : Nat) : Nat :=
  if c % 2 = 1 then Nat.xor (c / 2) 0xEDB88320 else c / 2

/-- Feed one byte into the running CRC state (8 shift iterations). -/
def crcByteStep (c b : Nat) : Nat :=
  crcShift (crcShift (crcShift (crcShift (crcShift (crcShift (crcShift (crcShift (Nat.xor c b))))))))

/-- Feed a byte string into the running CRC state; models `h.Write(bs)` on the
`hash/crc32` digest. -/
def crcUpdate (c : Nat) (bs : List Nat) : Nat :=
  bs.foldl crcByteStep c

/-- One-shot CRC-32/IEEE of a byte string (init 0xFFFFFFFF, final xor). -/
def crc32 (bs : List Nat) : Nat :=
  Nat.xor (crcUpdate 0xFFFFFFFF bs) 0xFFFFFFFF

/-- From utils.wal.go calculateCRC: a streaming IEEE digest is fed the payload
and then the 8 little-endian bytes of the LSN, and finalized. -/
def calculateCRC (data : List Nat) (lsn : Nat) : Nat :=
  Nat.xor (crcUpdate (crcUpdate 0xFFFFFFFF data) (leBytes 8 lsn)) 0xFFFFFFFF

/-! ## The record -/

/-- The WAL_Entry protobuf message (field numbers 1..4). `data` is opaque bytes,
`isCheckpoint` is `optional bool` (presence-tracked). -/
structure WAL_Entry where
  logSequenceNumber : Nat
  data : List Nat
  crc : Nat
  isCheckpoint : Option Bool
deriving DecidableEq

/-- From utils.wal.go NewEntry: build an entry and set its CRC from data and LSN. -/
def NewEntry (lsn : Nat) (data : List Nat) : WAL_Entry :=
  { logSequenceNumber := lsn, data := data, crc := calculateCRC data lsn, isCheckpoint := none }

/-- From utils.wal.go NewCheckpointEntry: like NewEntry but marked as checkpoint. -/
def NewCheckpointEntry (lsn : Nat) (data : List Nat) : WAL_Entry :=
  { logSequenceNumber := lsn, data := data, crc := calculateCRC data lsn,
    isCheckpoint := some true }

/-- From utils.wal.go VerifyEntry: recompute the CRC and compare with the stored
one; `true` means the entry verifies. -/
def VerifyEntry (e : WAL_Entry) : Bool :=
  e.crc = calculateCRC e.data e.logSequenceNumber

/-- Checkpoint test as written in the Go read paths:
`entry.IsCheckpoint != nil && *entry.IsCheckpoint`. -/
def isCk (e : WAL_Entry) : Bool :=
  e.isCheckpoint = some true

/-! ## Protobuf wire codec

Modelled from the spec: the generated protobuf code (types.pb.go) is not under
src/; the spec fixes "a stable, length-delimited, self-describing encoding of
the Record fields (field numbers 1=lsn, 2=payload, 3=checksum, 4=is_checkpoint)"
and the repository documents the exact proto3 message. The model below is the
standard proto3 wire format for that message: varint fields 1 (uint64), 3
(uint32) and 4 (bool, presence-tracked), length-delimited field 2 (bytes),
zero-valued non-optional fields omitted, fields emitted in field order. -/

/-- Base-128 varint encoding, least significant group first. Structural fuel
drives the recursion; `n` itself always suffices since the argument shrinks by
a factor of 128 each step (insensitivity is proved below). -/
def encodeVarintF : Nat → Nat → List Nat
  | 0, n => [n]
  | fuel + 1, n => if n < 128 then [n] else (n % 128 + 128) :: encodeVarintF fuel (n / 128)

def encodeVarint (n : Nat) : List Nat := encodeVarintF n n

/-- Base-128 varint decoding; returns the value and the remaining bytes, or
none if the bytes end inside a varint. -/
def decodeVarint : List Nat → Option (Nat × List Nat)
  | [] => none
  | b :: rest =>
    if b < 128 then some (b, rest)
    else match decodeVarint rest with
      | some (n, r) => some (n * 128 + (b - 128), r)
      | none => none

/-- Modelled from the spec: proto3 serialization of WAL_Entry.
Tags: field 1 varint = 0x08, field 2 bytes = 0x12, field 3 varint = 0x18,
field 4 varint = 0x20. -/
def marshalEntry (e : WAL_Entry) : List Nat :=
  (if e.logSequenceNumber = 0 then [] else 8 :: encodeVarint e.logSequenceNumber)
    ++ (if e.data = [] then [] else 18 :: (encodeVarint e.data.length ++ e.data))
    ++ (if e.crc = 0 then [] else 24 :: encodeVarint e.crc)
    ++ (match e.isCheckpoint with
        | none => []
        | some b => [32, if b then 1 else 0])

/-- Modelled from the spec: the proto3 field-parsing loop. Parses one field at
the head of the bytes, updating the accumulator entry, and recurses; unknown
field numbers are skipped as the wire format prescribes; malformed input gives
none. Each parsed field consumes at least one byte, so fuel equal to the byte
count suffices; `parseAt` below always supplies it. -/
def parseFields : Nat → List Nat → WAL_Entry → Option WAL_Entry
  | _, [], e => some e
  | 0, _ :: _, _ => none
  | fuel + 1, b :: bs, e =>
    match decodeVarint (b :: bs) with
    | none => none
    | some (tag, r1) =>
      let fieldNo := tag / 8
      let wire := tag % 8
      if fieldNo = 0 then none
      else if wire = 0 then
        match decodeVarint r1 with
        | none => none
        | some (v, r2) =>
          if fieldNo = 1 then parseFields fuel r2 { e with logSequenceNumber := v }
          else if fieldNo = 3 then parseFields fuel r2 { e with crc := v }
          else if fieldNo = 4 then parseFields fuel r2 { e with isCheckpoint := some (v ≠ 0) }
          else parseFields fuel r2 e
      else if wire = 2 then
        match decodeVarint r1 with
        | none => none
        | some (len, r2) =>
          if r2.length < len then none
          else if fieldNo = 2 then parseFields fuel (r2.drop len) { e with data := r2.take len }
          else parseFields fuel (r2.drop len) e
      else if wire = 5 then
        if r1.length < 4 then none else parseFields fuel (r1.drop 4) e
      else if wire = 1 then
        if r1.length < 8 then none else parseFields fuel (r1.drop 8) e
      else none

/-- Field parsing with adequate fuel. -/
def parseAt (bs : List Nat) (e : WAL_Entry) : Option WAL_Entry :=
  parseFields bs.length bs e

/-- Modelled from the spec: proto.Unmarshal, starting from the all-default entry. -/
def unmarshalEntry (bs : List Nat) : Option WAL_Entry :=
  parseAt bs { logSequenceNumber := 0, data := [], crc := 0, isCheckpoint := none }

/-! ## Framing: BinaryEntryWriter.WriteEntry / BinaryEntryReader.ReadEntry -/

/-- From entity_writer.go WriteEntry: the on-disk frame is the 4-byte
little-endian `uint32(len(data))` length prefix followed by the marshalled
entry; `uint32(...)` is a truncating conversion, hence the `% 2^32`. -/
def frameEntry (e : WAL_Entry) : List Nat :=
  leBytes 4 ((marshalEntry e).length % 2 ^ 32) ++ marshalEntry e

/-- Byte stream of a list of entries: segment files hold a concatenation of
frames. -/
def framesConcat (es : List WAL_Entry) : List Nat :=
  (es.map frameEntry).flatten

/-- Outcome of one BinaryEntryReader.ReadEntry call on the remaining bytes of
a segment. Go error mapping: reading the 4-byte prefix with zero bytes left
returns io.EOF (`eof`); 1..3 bytes left return io.ErrUnexpectedEOF
(`errShortPrefix`); io.ReadFull failing after the prefix was consumed is the
wrapped "read entry data" error (`errShortBody`); MustUnmarshal panicking on an
undecodable body is `crashed`. -/
inductive ReadOutcome where
  | entry (e : WAL_Entry) (rest : List Nat)
  | eof
  | errShortPrefix
  | errShortBody
  | crashed
deriving DecidableEq

/-- From the reader (src/unnamed/part_002 ReadEntry): read the u32le length
prefix, read exactly that many bytes, MustUnmarshal them. -/
def readEntryBytes (bs : List Nat) : ReadOutcome :=
  match bs with
  | [] => .eof
  | [_] => .errShortPrefix
  | [_, _] => .errShortPrefix
  | [_, _, _] => .errShortPrefix
  | b0 :: b1 :: b2 :: b3 :: rest =>
    let size := u32ofBytes b0 b1 b2 b3
    if rest.length < size then .errShortBody
    else match unmarshalEntry (rest.take size) with
      | some e => .entry e (rest.drop size)
      | none => .crashed

/-! ## Read loops over one segment -/

/-- Result of scanning a whole segment. The Go loops accumulate entries and
return them alongside the error; `crashed` models a propagating panic. -/
inductive SegScan where
  | ok (es : List WAL_Entry)
  | errRead (es : List WAL_Entry)
  | errCorrupt (es : List WAL_Entry)
  | crashed
deriving DecidableEq

/-- From utils.wal.go ReadAllEntries: read entries until io.EOF, verifying each
CRC (bad CRC stops the loop with the mismatch error). `acc` is the accumulated
`entries` slice. -/
def readAllEntriesLoopF : Nat → List Nat → List WAL_Entry → SegScan
  | 0, _, _ => .crashed
  | fuel + 1, bs, acc =>
    match readEntryBytes bs with
    | .eof => .ok acc
    | .entry e rest =>
      if VerifyEntry e then readAllEntriesLoopF fuel rest (acc ++ [e]) else .errCorrupt acc
    | .errShortPrefix => .errRead acc
    | .errShortBody => .errRead acc
    | .crashed => .crashed

def readAllEntriesLoop (bs : List Nat) (acc : List WAL_Entry) : SegScan :=
  readAllEntriesLoopF (bs.length + 1) bs acc

/-- Per-segment result of ReadEntriesWithCheckpoint: entries, checkpoint LSN
seen in this segment (0 if none), and how the scan ended. -/
inductive CkScan where
  | ok (es : List WAL_Entry) (cp : Nat)
  | errRead (es : List WAL_Entry) (cp : Nat)
  | errCorrupt (es : List WAL_Entry) (cp : Nat)
  | crashed
deriving DecidableEq

/-- From utils.wal.go ReadEntriesWithCheckpoint: like ReadAllEntries, but a
checkpoint entry resets the accumulated entries to just itself and records its
LSN. -/
def readCkEntriesLoopF : Nat → List Nat → List WAL_Entry → Nat → CkScan
  | 0, _, _, _ => .crashed
  | fuel + 1, bs, acc, cp =>
    match readEntryBytes bs with
    | .eof => .ok acc cp
    | .entry e rest =>
      if VerifyEntry e then
        if isCk e then readCkEntriesLoopF fuel rest [e] e.logSequenceNumber
        else readCkEntriesLoopF fuel rest (acc ++ [e]) cp
      else .errCorrupt acc cp
    | .errShortPrefix => .errRead acc cp
    | .errShortBody => .errRead acc cp
    | .crashed => .crashed

def readCkEntriesLoop (bs : List Nat) (acc : List WAL_Entry) (cp : Nat) : CkScan :=
  readCkEntriesLoopF (bs.length + 1) bs acc cp

/-- From part_007 loadLastLSN: scan the current segment without CRC checks,
remembering the LSN of the last successfully framed entry; any read error other
than io.EOF aborts recovery. `last` is `w.lastLSN` (0 initially; nil
`lastEntry` leaves it untouched). -/
inductive LoadScan where
  | ok (lastLSN : Nat)
  | errRead
  | crashed
deriving DecidableEq

def loadLastLSNLoopF : Nat → List Nat → Nat → LoadScan
  | 0, _, _ => .crashed
  | fuel + 1, bs, last =>
    match readEntryBytes bs with
    | .eof => .ok last
    | .entry e rest => loadLastLSNLoopF fuel rest e.logSequenceNumber
    | .errShortPrefix => .errRead
    | .errShortBody => .errRead
    | .crashed => .crashed

def loadLastLSNLoop (bs : List Nat) (last : Nat) : LoadScan :=
  loadLastLSNLoopF (bs.length + 1) bs last

/-! ## Segment store (FileSegmentManager, src/unnamed/part_005)

The directory is an association list from segment id to file content. The
reference implementation names files `segment-<id>`, so ids are unique keys;
`ListSegments` globs and sorts ascending, `CreateSegment` opens
create-or-append, `DeleteSegment` removes the file, `CurrentSegmentSize` stats
the file. -/

/-- A directory of segment files. -/
abbrev Store := List (Nat × List Nat)

/-- Insertion into a sorted list of ids (FileSegmentManager.ListSegments sorts
ascending with a quadratic swap loop; insertion sort has the same result). -/
def insertIdSorted (n : Nat) : List Nat → List Nat
  | [] => [n]
  | m :: ms => if n ≤ m then n :: m :: ms else m :: insertIdSorted n ms

/-- Sort a list of ids ascending. -/
def sortIds (l : List Nat) : List Nat := l.foldr insertIdSorted []

/-- ListSegments: all segment ids present, sorted ascending. -/
def listSegments (st : Store) : List Nat :=
  sortIds (st.map Prod.fst)

/-- Content of segment `id`, if the file exists. -/
def segBytes (st : Store) (id : Nat) : Option (List Nat) :=
  (st.find? (fun p => p.fst = id)).map Prod.snd

/-- CreateSegment: open create-or-append; an existing file is left as is
(append mode), a missing one appears empty. -/
def createSegment (st : Store) (id : Nat) : Store :=
  if (st.find? (fun p => p.fst = id)).isSome then st else st ++ [(id, [])]

/-- DeleteSegment: remove the file. -/
def deleteSegment (st : Store) (id : Nat) : Store :=
  st.filter (fun p => p.fst ≠ id)

/-- Append bytes to the content of segment `id` (the effect of a successful
write on the append-mode file handle). -/
def appendSegment (st : Store) (id : Nat) (p : List Nat) : Store :=
  st.map (fun q => if q.fst = id then (q.fst, q.snd ++ p) else q)

/-! ## The WAL coordinator (src/unnamed/part_007) -/

/-- Error kinds surfaced by the model. `crashed` stands for a Go panic
propagating out of an operation (see module header); the other constructors
are ordinary returned errors. -/
inductive WErr where
  | ioClosed      -- write or fsync on a closed file handle
  | statFailed    -- CurrentSegmentSize / OpenSegment on a missing segment
  | readFailed    -- a non-EOF error from the entry reader during recovery
  | corrupt       -- CRC mismatch surfaced by a read path
  | crashed       -- a propagating panic (MustUnmarshal)
deriving DecidableEq

deriving instance DecidableEq for Except

/-- WALOptions (SyncInterval carries no state-relevant behavior in the model;
timers are not modelled). -/
structure WALOptions where
  maxSegmentSize : Nat
  maxSegments : Nat
  enableFsync : Bool
deriving DecidableEq

/-- DefaultWALOptions: 4 MiB segments, 10 segments, fsync on. -/
def DefaultWALOptions : WALOptions :=
  { maxSegmentSize := 4 * 1024 * 1024, maxSegments := 10, enableFsync := true }

/-- The coordinator state. `buffer` is the bufio buffer of the current
BinaryEntryWriter; `sinkClosed` records that `currentWriter.Close()` ran;
`sinkSupportsSync` is the capability probe `w.(syncer)` (true for the file
store, whose handles are os.File); `stableRequested` is instrumentation that
becomes true whenever the model calls the sink Sync (fsync) — it changes no
behavior and exists only to state durability claims. -/
structure WalState where
  store : Store
  currentSegment : Nat
  buffer : List Nat
  lastLSN : Nat
  sinkClosed : Bool
  sinkSupportsSync : Bool
  stableRequested : Bool
deriving DecidableEq

/-- Write bytes through the current file handle to the current segment file.
Fails if the handle is closed. (In every state the model reaches, the current
segment file exists; a missing file is reported like a failed write.) -/
def sinkWrite (w : WalState) (p : List Nat) : Except WErr WalState :=
  if w.sinkClosed then .error .ioClosed
  else match segBytes w.store w.currentSegment with
    | none => .error .statFailed
    | some _ => .ok { w with store := appendSegment w.store w.currentSegment p }

/-- bufio.Writer.Flush: an empty buffer returns nil without touching the file;
otherwise the buffer is written through. -/
def flushBuf (w : WalState) : Except WErr WalState :=
  if w.buffer = [] then .ok w
  else (sinkWrite w w.buffer).map (fun w2 => { w2 with buffer := [] })

/-- bufio.Writer.Write with the 4 KiB buffer: data that fits is buffered; a
full buffer is flushed; a large write with an empty buffer goes straight to
the file. -/
def bufWriteF : Nat → WalState → List Nat → Except WErr WalState
  | 0, _, _ => .error .crashed
  | fuel + 1, w, p =>
    if p.length ≤ 4096 - w.buffer.length then .ok { w with buffer := w.buffer ++ p }
    else if w.buffer.length = 0 then sinkWrite w p
    else
      let avail := 4096 - w.buffer.length
      match sinkWrite w (w.buffer ++ p.take avail) with
      | .error er => .error er
      | .ok w2 => bufWriteF fuel { w2 with buffer := [] } (p.drop avail)

def bufWrite (w : WalState) (p : List Nat) : Except WErr WalState :=
  bufWriteF (p.length + w.buffer.length + 1) w p

/-- BinaryEntryWriter.Sync: flush, then request stable storage if the sink
supports it (never consulting the options; note that EnableFsync does not
appear). os.File.Sync on a closed handle fails. -/
def writerSync (w : WalState) : Except WErr WalState :=
  match flushBuf w with
  | .error er => .error er
  | .ok w2 =>
    if w2.sinkSupportsSync then
      if w2.sinkClosed then .error .ioClosed
      else .ok { w2 with stableRequested := true }
    else .ok w2

/-- BinaryEntryWriter.WriteEntry: marshal, write the u32le length prefix, then
the marshalled bytes (two bufio writes). -/
def writerWriteEntry (w : WalState) (e : WAL_Entry) : Except WErr WalState :=
  match bufWrite w (leBytes 4 ((marshalEntry e).length % 2 ^ 32)) with
  | .error er => .error er
  | .ok w2 => bufWrite w2 (marshalEntry e)

/-- WAL.rotate: sync and close the current segment, delete the oldest segment
if the count reached MaxSegments (a single delete, as in the source), then
create the next segment and a fresh writer. -/
def rotate (opts : WALOptions) (w : WalState) : Except WErr WalState :=
  match writerSync w with
  | .error er => .error er
  | .ok w1 =>
    if w1.sinkClosed then .error .ioClosed
    else
      let w2 := { w1 with sinkClosed := true }
      let segs := listSegments w2.store
      let w3 :=
        if opts.maxSegments ≤ segs.length then
          { w2 with store := deleteSegment w2.store (segs.headD 0) }
        else w2
      let nextSeg := w3.currentSegment + 1
      .ok { w3 with
              currentSegment := nextSeg
              store := createSegment w3.store nextSeg
              sinkClosed := false
              buffer := [] }

/-- WAL.rotateIfNeeded: rotate when persisted size plus buffered bytes reaches
MaxSegmentSize. -/
def rotateIfNeeded (opts : WALOptions) (w : WalState) : Except WErr WalState :=
  match segBytes w.store w.currentSegment with
  | none => .error .statFailed
  | some content =>
    if content.length + w.buffer.length < opts.maxSegmentSize then .ok w
    else rotate opts w

/-- WAL.writeEntry: rotate if needed, assign the next LSN (uint64 increment),
build the entry, pre-sync when it is a checkpoint, and hand it to the writer.
Returns the assigned LSN. -/
def writeEntry (opts : WALOptions) (w : WalState) (data : List Nat) (isCheckpoint : Bool) :
    Except WErr (Nat × WalState) :=
  match rotateIfNeeded opts w with
  | .error er => .error er
  | .ok w1 =>
    let lsn := (w1.lastLSN + 1) % 2 ^ 64
    let w2 := { w1 with lastLSN := lsn }
    let e := NewEntry lsn data
    match (if isCheckpoint then writerSync w2 else .ok w2 : Except WErr WalState) with
    | .error er => .error er
    | .ok w3 =>
      let e2 := if isCheckpoint then { e with isCheckpoint := some true } else e
      match writerWriteEntry w3 e2 with
      | .error er => .error er
      | .ok w4 => .ok (lsn, w4)

/-- WAL.WriteEntry. -/
def WriteEntry (opts : WALOptions) (w : WalState) (data : List Nat) :
    Except WErr (Nat × WalState) :=
  writeEntry opts w data false

/-- WAL.WriteCheckpoint. -/
def WriteCheckpoint (opts : WALOptions) (w : WalState) (data : List Nat) :
    Except WErr (Nat × WalState) :=
  writeEntry opts w data true

/-- WAL.Sync (public): the writer sync; the timer reset carries no
state-relevant behavior. -/
def Sync (w : WalState) : Except WErr WalState :=
  writerSync w

/-- WAL.Close: cancel and join the background task (not state-relevant), sync
the writer, close the current file handle. -/
def Close (w : WalState) : Except WErr WalState :=
  match writerSync w with
  | .error er => .error er
  | .ok w1 =>
    if w1.sinkClosed then .error .ioClosed
    else .ok { w1 with sinkClosed := true }

/-- WAL.loadLastLSN: open the current segment and scan it, keeping the last
framed LSN. -/
def loadLastLSN (w : WalState) : Except WErr WalState :=
  match segBytes w.store w.currentSegment with
  | none => .error .statFailed
  | some content =>
    match loadLastLSNLoop content w.lastLSN with
    | .ok l => .ok { w with lastLSN := l }
    | .errRead => .error .readFailed
    | .crashed => .error .crashed

/-- WAL.Open: choose the highest existing segment id (or 0), open it in append
mode, recover the last LSN from it, and start with a fresh writer. -/
def Open (store : Store) (opts : WALOptions) : Except WErr WalState :=
  let segs := listSegments store
  let currentSegment := if segs = [] then 0 else segs.getLastD 0
  let store2 := createSegment store currentSegment
  let w : WalState :=
    { store := store2, currentSegment := currentSegment, buffer := [],
      lastLSN := 0, sinkClosed := false, sinkSupportsSync := true,
      stableRequested := false }
  loadLastLSN w

/-- WAL.ReadAll: stream every segment in ascending id order through
ReadAllEntries; any error aborts with no entries. -/
def readAllFrom (st : Store) (ids : List Nat) (acc : List WAL_Entry) :
    Except WErr (List WAL_Entry) :=
  match ids with
  | [] => .ok acc
  | id :: rest =>
    match segBytes st id with
    | none => .error .statFailed
    | some content =>
      match readAllEntriesLoop content [] with
      | .ok es => readAllFrom st rest (acc ++ es)
      | .errRead _ => .error .readFailed
      | .errCorrupt _ => .error .corrupt
      | .crashed => .error .crashed

def ReadAll (w : WalState) : Except WErr (List WAL_Entry) :=
  readAllFrom w.store (listSegments w.store) []

/-- WAL.ReadFromCheckpoint: stream every segment through
ReadEntriesWithCheckpoint; a segment whose checkpoint LSN beats the best seen
so far replaces the accumulated entries, otherwise the segment is appended. -/
def readCkFrom (st : Store) (ids : List Nat) (acc : List WAL_Entry) (cp : Nat) :
    Except WErr (List WAL_Entry) :=
  match ids with
  | [] => .ok acc
  | id :: rest =>
    match segBytes st id with
    | none => .error .statFailed
    | some content =>
      match readCkEntriesLoop content [] 0 with
      | .ok es segCp =>
        if cp < segCp then readCkFrom st rest es segCp
        else readCkFrom st rest (acc ++ es) cp
      | .errRead _ _ => .error .readFailed
      | .errCorrupt _ _ => .error .corrupt
      | .crashed => .error .crashed

def ReadFromCheckpoint (w : WalState) : Except WErr (List WAL_Entry) :=
  readCkFrom w.store (listSegments w.store) [] 0

/-! ## Run harness for concrete scenarios -/

/-- One scripted call against the coordinator. -/
inductive WalOp where
  | write (data : List Nat)
  | writeCk (data : List Nat)
  | sync
  | close
deriving DecidableEq

/-- Apply one scripted call. -/
def applyOp (opts : WALOptions) (w : WalState) : WalOp → Except WErr WalState
  | .write d => (writeEntry opts w d false).map Prod.snd
  | .writeCk d => (writeEntry opts w d true).map Prod.snd
  | .sync => Sync w
  | .close => Close w

/-- Run a script of calls from a given state. -/
def runOps (opts : WALOptions) (w : WalState) : List WalOp → Except WErr WalState
  | [] => .ok w
  | op :: rest =>
    match applyOp opts w op with
    | .error er => .error er
    | .ok w2 => runOps opts w2 rest

/-- Open on a starting directory and run a script. -/
def runFrom (store : Store) (opts : WALOptions) (ops : List WalOp) :
    Except WErr WalState :=
  match Open store opts with
  | .error er => .error er
  | .ok w => runOps opts w ops

/-! ## Predicates used in statements -/

/-- Well-formedness bounds every entry built by the coordinator satisfies:
LSN and CRC fit their Go integer types and the payload stays small enough that
the `uint32(len(...))` length prefix is exact. -/
def EntryWF (e : WAL_Entry) : Prop :=
  e.logSequenceNumber < 2 ^ 64 ∧ e.crc < 2 ^ 32 ∧ e.data.length < 2 ^ 32 - 64

instance (e : WAL_Entry) : Decidable (EntryWF e) := by
  unfold EntryWF; infer_instance

/-- The byte stream yields no checkpoint record when scanned by the entry
reader (the hypothesis of the no-checkpoint equivalence claim). -/
def streamNoCkF : Nat → List Nat → Bool
  | 0, _ => true
  | fuel + 1, bs =>
    match readEntryBytes bs with
    | .entry e rest => !isCk e && streamNoCkF fuel rest
    | _ => true

def streamNoCk (bs : List Nat) : Bool := streamNoCkF (bs.length + 1) bs

/-- Map a plain segment scan to a checkpoint scan carrying an unchanged
checkpoint LSN (used to state that a checkpoint-free scan degenerates to the
plain scan). -/
def ckOfSeg (s : SegScan) (cp : Nat) : CkScan :=
  match s with
  | .ok es => .ok es cp
  | .errRead es => .errRead es cp
  | .errCorrupt es => .errCorrupt es cp
  | .crashed => .crashed

/-- The LSNs of a record list. -/
def lsnsOf (es : List WAL_Entry) : List Nat :=
  es.map WAL_Entry.logSequenceNumber

/-- States reachable by opening an empty directory and performing successful
write_entry / write_checkpoint calls. The two side conditions bound the run to
the regime the wire format supports: payloads small enough that the u32 frame
prefix is exact (the spec bounds payloads by the maximum record size), payload
bytes actual Go bytes, and fewer than 2^64 writes so the uint64 LSN does not
wrap. -/
inductive Reach (opts : WALOptions) : WalState → Prop where
  | openEmpty (w : WalState) : Open [] opts = .ok w → Reach opts w
  | step (w : WalState) (data : List Nat) (ck : Bool) (lsn : Nat) (w2 : WalState) :
      Reach opts w →
      data.length < 2 ^ 32 - 64 →
      (∀ b ∈ data, b < 256) →
      w.lastLSN + 1 < 2 ^ 64 →
      writeEntry opts w data ck = .ok (lsn, w2) →
      Reach opts w2

/-- All entries well-formed and CRC-valid. -/
def EntriesOk (es : List WAL_Entry) : Prop :=
  ∀ e ∈ es, EntryWF e ∧ VerifyEntry e = true

/-- Common shape of what the buffered writer may do to the state: only the
current segment file and the buffer change, and together they gain exactly the
bytes handed to the writer. -/
def WriterEffect (w w2 : WalState) (p : List Nat) : Prop :=
  w2.currentSegment = w.currentSegment ∧
  w2.lastLSN = w.lastLSN ∧
  w2.sinkClosed = w.sinkClosed ∧
  w2.sinkSupportsSync = w.sinkSupportsSync ∧
  w2.store.map Prod.fst = w.store.map Prod.fst ∧
  (∀ j, j ≠ w.currentSegment → segBytes w2.store j = segBytes w.store j) ∧
  (∀ cur, segBytes w.store w.currentSegment = some cur →
    ∃ cur2, segBytes w2.store w.currentSegment = some cur2 ∧
      cur2 ++ w2.buffer = cur ++ w.buffer ++ p)

/-- The coordinator invariant carried along every run from an empty directory:
the store consists of fully flushed older segments (each holding the frames of
its entry list) plus the current segment, whose file content concatenated with
the writer buffer is the frame stream of the current entry list; ids are
strictly ascending, the segment count follows the retention discipline, and
the LSNs of all live entries form the contiguous range ending at lastLSN. -/
def Inv (opts : WALOptions) (w : WalState) : Prop :=
  w.sinkClosed = false ∧
  ∃ (pre : List (Nat × List WAL_Entry)) (lb : List Nat) (lastE : List WAL_Entry) (L : Nat),
    w.store = pre.map (fun q => (q.fst, framesConcat q.snd)) ++ [(w.currentSegment, lb)] ∧
    lb ++ w.buffer = framesConcat lastE ∧
    List.Chain' (· < ·) (pre.map Prod.fst ++ [w.currentSegment]) ∧
    pre.length + 1 = min (w.currentSegment + 1) opts.maxSegments ∧
    EntriesOk ((pre.map Prod.snd).flatten ++ lastE) ∧
    lsnsOf ((pre.map Prod.snd).flatten ++ lastE) =
      List.range' L ((pre.map Prod.snd).flatten ++ lastE).length ∧
    1 ≤ L ∧
    L + ((pre.map Prod.snd).flatten ++ lastE).length = w.lastLSN + 1 ∧
    (w.currentSegment < opts.maxSegments → L = 1) ∧
    w.lastLSN < 2 ^ 64

/-! ## Varint codec lemmas -/

/-- The fuel of `encodeVarintF` does not matter once it dominates the value. -/
theorem encodeVarintF_congr : ∀ (n : Nat), ∀ {f1 f2 : Nat}, n ≤ f1 → n ≤ f2 →
    encodeVarintF f1 n = encodeVarintF f2 n := by
  intro n
  induction n using Nat.strong_induction_on with
  | _ n ih =>
    intro f1 f2 h1 h2
    match f1, f2 with
    | 0, 0 => rfl
    | 0, g + 1 =>
      have hn : n = 0 := by omega
      subst hn
      simp [encodeVarintF]
    | f + 1, 0 =>
      have hn : n = 0 := by omega
      subst hn
      simp [encodeVarintF]
    | f + 1, g + 1 =>
      simp only [encodeVarintF]
      by_cases hlt : n < 128
      · simp [hlt]
      · simp only [hlt, if_false]
        have hdiv : n / 128 < n := Nat.div_lt_self (by omega) (by omega)
        congr 1
        exact ih (n / 128) hdiv (by omega) (by omega)

/-- The recursion equation for the varint encoder. -/
theorem encodeVarint_eq (n : Nat) :
    encodeVarint n = if n < 128 then [n] else (n % 128 + 128) :: encodeVarint (n / 128) := by
  unfold encodeVarint
  by_cases hlt : n < 128
  · match n with
    | 0 => simp [encodeVarintF]
    | m + 1 => simp [encodeVarintF, hlt]
  · match n with
    | 0 => omega
    | m + 1 =>
      simp only [encodeVarintF, hlt, if_false]
      have hdiv : (m + 1) / 128 < m + 1 := Nat.div_lt_self (by omega) (by omega)
      congr 1
      exact encodeVarintF_congr ((m + 1) / 128) (by omega) (Nat.le_refl _)

theorem encodeVarint_length_pos (n : Nat) : 0 < (encodeVarint n).length := by
  rw [encodeVarint_eq]
  split <;> simp

theorem encodeVarint_bytes_lt (n : Nat) : ∀ b ∈ encodeVarint n, b < 256 := by
  induction n using Nat.strong_induction_on with
  | _ n ih =>
    rw [encodeVarint_eq]
    split
    · intro b hb
      simp at hb
      omega
    · intro b hb
      simp at hb
      rcases hb with h | h
      · omega
      · exact ih (n / 128) (Nat.div_lt_self (by omega) (by omega)) b h

theorem decodeVarint_encode (n : Nat) (rest : List Nat) :
    decodeVarint (encodeVarint n ++ rest) = some (n, rest) := by
  induction n using Nat.strong_induction_on with
  | _ n ih =>
    rw [encodeVarint_eq]
    by_cases h : n < 128
    · simp [h, decodeVarint]
    · simp only [if_neg h, List.cons_append]
      rw [decodeVarint]
      have h1 : ¬(n % 128 + 128 < 128) := by omega
      simp only [if_neg h1]
      rw [ih (n / 128) (Nat.div_lt_self (by omega) (by omega))]
      have h2 : n / 128 * 128 + (n % 128 + 128 - 128) = n := by omega
      simp
      omega

/-- A successful varint decode consumes at least one byte. -/
theorem decodeVarint_length {bs : List Nat} {n : Nat} {r : List Nat}
    (h : decodeVarint bs = some (n, r)) : r.length < bs.length := by
  induction bs generalizing n r with
  | nil => simp [decodeVarint] at h
  | cons b rest ih =>
    rw [decodeVarint] at h
    by_cases hb : b < 128
    · simp [hb] at h
      simp [h.2.symm]
    · simp only [if_neg hb] at h
      match hd : decodeVarint rest with
      | none => rw [hd] at h; simp at h
      | some (m, r2) =>
        rw [hd] at h
        simp at h
        have := ih hd
        simp [h.2.symm, List.length_cons]
        omega

/-- parseFields is insensitive to the exact fuel as long as it covers the byte
count (each field consumes at least one byte). -/
theorem parseFields_fuelEq : ∀ (n : Nat) (bs : List Nat) (f g : Nat) (e : WAL_Entry),
    bs.length ≤ n → bs.length ≤ f → bs.length ≤ g →
    parseFields f bs e = parseFields g bs e := by
  intro n
  induction n with
  | zero =>
    intro bs f g e hn _ _
    have hbs : bs = [] := List.eq_nil_of_length_eq_zero (by omega)
    subst hbs
    cases f <;> cases g <;> rfl
  | succ n ihn =>
    intro bs f g e hn hf hg
    cases bs with
    | nil => cases f <;> cases g <;> rfl
    | cons b tl =>
      simp only [List.length_cons] at hn hf hg
      obtain ⟨f2, rfl⟩ : ∃ f2, f = f2 + 1 := ⟨f - 1, by omega⟩
      obtain ⟨g2, rfl⟩ : ∃ g2, g = g2 + 1 := ⟨g - 1, by omega⟩
      simp only [parseFields]
      cases hd : decodeVarint (b :: tl) with
      | none => rfl
      | some p =>
        obtain ⟨tag, r1⟩ := p
        have hr1 : r1.length < tl.length + 1 := by
          have := decodeVarint_length hd
          simpa using this
        simp only []
        by_cases h0 : tag / 8 = 0
        · simp [h0]
        · simp only [if_neg h0]
          by_cases hw0 : tag % 8 = 0
          · simp only [hw0, if_pos]
            cases hd2 : decodeVarint r1 with
            | none => rfl
            | some q =>
              obtain ⟨v, r2⟩ := q
              have hr2 : r2.length < r1.length := decodeVarint_length hd2
              simp only []
              split_ifs <;> exact ihn _ _ _ _ (by omega) (by omega) (by omega)
          · simp only [if_neg hw0]
            by_cases hw2 : tag % 8 = 2
            · simp only [hw2, if_pos]
              cases hd2 : decodeVarint r1 with
              | none => rfl
              | some q =>
                obtain ⟨len, r2⟩ := q
                have hr2 : r2.length < r1.length := decodeVarint_length hd2
                have hdrop : (r2.drop len).length ≤ r2.length := by
                  simp [List.length_drop]
                simp only []
                split_ifs <;> first
                  | rfl
                  | exact ihn _ _ _ _ (by omega) (by omega) (by omega)
            · simp only [if_neg hw2]
              by_cases hw5 : tag % 8 = 5
              · have hdrop : (r1.drop 4).length ≤ r1.length := by
                  simp [List.length_drop]
                simp only [hw5, if_pos]
                split_ifs <;> first
                  | rfl
                  | exact ihn _ _ _ _ (by omega) (by omega) (by omega)
              · simp only [if_neg hw5]
                by_cases hw1 : tag % 8 = 1
                · have hdrop : (r1.drop 8).length ≤ r1.length := by
                    simp [List.length_drop]
                  simp only [hw1, if_pos]
                  split_ifs <;> first
                    | rfl
                    | exact ihn _ _ _ _ (by omega) (by omega) (by omega)
                · simp [if_neg hw1]

theorem parseAt_of_le {bs : List Nat} {f : Nat} (e : WAL_Entry) (h : bs.length ≤ f) :
    parseFields f bs e = parseAt bs e :=
  parseFields_fuelEq f bs f bs.length e h h (Nat.le_refl _)

theorem parseAt_nil (e : WAL_Entry) : parseAt [] e = some e := rfl

/-- Parsing past an encoded field 1 (lsn). -/
theorem parseAt_lsn (v : Nat) (rest : List Nat) (e : WAL_Entry) :
    parseAt (8 :: (encodeVarint v ++ rest)) e =
      parseAt rest { e with logSequenceNumber := v } := by
  have hd : decodeVarint (8 :: (encodeVarint v ++ rest)) = some (8, encodeVarint v ++ rest) := by
    rw [decodeVarint]
    norm_num
  unfold parseAt
  simp only [List.length_cons, parseFields, hd, decodeVarint_encode]
  norm_num
  exact parseAt_of_le _ (by omega)

/-- Parsing past an encoded field 2 (payload). -/
theorem parseAt_data (d : List Nat) (rest : List Nat) (e : WAL_Entry) :
    parseAt (18 :: (encodeVarint d.length ++ (d ++ rest))) e =
      parseAt rest { e with data := d } := by
  have hd : decodeVarint (18 :: (encodeVarint d.length ++ (d ++ rest))) =
      some (18, encodeVarint d.length ++ (d ++ rest)) := by
    rw [decodeVarint]
    norm_num
  unfold parseAt
  simp only [List.length_cons, parseFields, hd, decodeVarint_encode]
  norm_num
  exact parseAt_of_le _ (by omega)

/-- Parsing past an encoded field 3 (crc). -/
theorem parseAt_crc (v : Nat) (rest : List Nat) (e : WAL_Entry) :
    parseAt (24 :: (encodeVarint v ++ rest)) e = parseAt rest { e with crc := v } := by
  have hd : decodeVarint (24 :: (encodeVarint v ++ rest)) = some (24, encodeVarint v ++ rest) := by
    rw [decodeVarint]
    norm_num
  unfold parseAt
  simp only [List.length_cons, parseFields, hd, decodeVarint_encode]
  norm_num
  exact parseAt_of_le _ (by omega)

/-- Parsing past an encoded field 4 (isCheckpoint). -/
theorem parseAt_ck (b : Bool) (rest : List Nat) (e : WAL_Entry) :
    parseAt (32 :: (if b then 1 else 0) :: rest) e =
      parseAt rest { e with isCheckpoint := some b } := by
  have hd : decodeVarint (32 :: (if b then 1 else 0) :: rest) =
      some (32, (if b then 1 else 0) :: rest) := by
    rw [decodeVarint]
    norm_num
  have hd2 : decodeVarint ((if b then 1 else 0) :: rest) = some (if b then 1 else 0, rest) := by
    rw [decodeVarint]
    cases b <;> norm_num
  unfold parseAt
  simp only [List.length_cons, parseFields, hd, hd2]
  norm_num
  have hb : (decide ((if b then 1 else 0 : Nat) ≠ 0)) = b := by cases b <;> norm_num
  try rw [hb]
  exact parseAt_of_le _ (by omega)

/-- Terminal variants of the field-step lemmas (field encoded at the very end
of the wire bytes). -/
theorem parseAt_lsn_end (v : Nat) (e : WAL_Entry) :
    parseAt (8 :: encodeVarint v) e = some { e with logSequenceNumber := v } := by
  have := parseAt_lsn v [] e
  simpa [parseAt_nil] using this

theorem parseAt_data_end (d : List Nat) (e : WAL_Entry) :
    parseAt (18 :: (encodeVarint d.length ++ d)) e = some { e with data := d } := by
  have := parseAt_data d [] e
  simpa [parseAt_nil] using this

theorem parseAt_crc_end (v : Nat) (e : WAL_Entry) :
    parseAt (24 :: encodeVarint v) e = some { e with crc := v } := by
  have := parseAt_crc v [] e
  simpa [parseAt_nil] using this

theorem parseAt_ck_end (b : Bool) (e : WAL_Entry) :
    parseAt [32, if b then 1 else 0] e = some { e with isCheckpoint := some b } := by
  have := parseAt_ck b [] e
  simpa [parseAt_nil] using this

/-- Round trip of the wire codec: unmarshalling a marshalled entry restores it
exactly (including defaulted and presence-tracked fields). -/
theorem unmarshal_marshal (e : WAL_Entry) : unmarshalEntry (marshalEntry e) = some e := by
  obtain ⟨lsn, data, crc, ck⟩ := e
  unfold unmarshalEntry marshalEntry
  rcases ck with _ | b <;>
    by_cases h1 : lsn = 0 <;> by_cases h2 : data = ([] : List Nat) <;> by_cases h3 : crc = 0 <;>
      simp only [h1, h2, h3, List.nil_append, List.append_nil, List.cons_append,
        List.append_assoc, reduceIte] <;>
      simp only [parseAt_lsn, parseAt_data, parseAt_crc, parseAt_ck, parseAt_lsn_end,
        parseAt_data_end, parseAt_crc_end, parseAt_ck_end, parseAt_nil] <;>
      simp_all

theorem encodeVarint_length_le (k n : Nat) (hk : 1 ≤ k) (h : n < 2 ^ (7 * k)) :
    (encodeVarint n).length ≤ k := by
  induction k generalizing n with
  | zero => omega
  | succ k ihk =>
    rw [encodeVarint_eq]
    by_cases hn : n < 128
    · simp [hn]
    · simp only [if_neg hn, List.length_cons]
      have hk1 : 1 ≤ k := by
        by_contra hc
        have hk0 : k = 0 := by omega
        subst hk0
        simp at h
        omega
      have hdiv : n / 128 < 2 ^ (7 * k) := by
        have : n < 2 ^ (7 * k) * 128 := by
          have : 7 * (k + 1) = 7 * k + 7 := by ring
          rw [this, pow_add] at h
          omega
        omega
      have := ihk _ hk1 hdiv
      omega

/-! ## Size and byte-range facts -/

theorem marshalEntry_length_le (e : WAL_Entry) (he : EntryWF e) :
    (marshalEntry e).length ≤ e.data.length + 25 := by
  obtain ⟨h1, h2, h3⟩ := he
  have hl1 : (encodeVarint e.logSequenceNumber).length ≤ 10 :=
    encodeVarint_length_le 10 _ (by omega) (by
      calc e.logSequenceNumber < 2 ^ 64 := h1
        _ ≤ 2 ^ (7 * 10) := by norm_num)
  have hl2 : (encodeVarint e.data.length).length ≤ 5 :=
    encodeVarint_length_le 5 _ (by omega) (by
      calc e.data.length < 2 ^ 32 - 64 := h3
        _ ≤ 2 ^ (7 * 5) := by norm_num)
  have hl3 : (encodeVarint e.crc).length ≤ 5 :=
    encodeVarint_length_le 5 _ (by omega) (by
      calc e.crc < 2 ^ 32 := h2
        _ ≤ 2 ^ (7 * 5) := by norm_num)
  unfold marshalEntry
  split_ifs <;> rcases hck : e.isCheckpoint with _ | b <;>
    simp [hck, List.length_append] <;> omega

theorem marshalEntry_length_lt (e : WAL_Entry) (he : EntryWF e) :
    (marshalEntry e).length < 2 ^ 32 := by
  have h1 := marshalEntry_length_le e he
  have h2 := he.2.2
  omega

theorem leBytes_length (k n : Nat) : (leBytes k n).length = k := by
  induction k generalizing n with
  | zero => rfl
  | succ k ih => simp [leBytes, ih]

theorem leBytes_lt (k n : Nat) : ∀ b ∈ leBytes k n, b < 256 := by
  induction k generalizing n with
  | zero => simp [leBytes]
  | succ k ih =>
    intro b hb
    simp only [leBytes, List.mem_cons] at hb
    rcases hb with h | h
    · omega
    · exact ih _ _ h

theorem u32ofBytes_le (n : Nat) (hn : n < 2 ^ 32) :
    u32ofBytes (n % 256) (n / 256 % 256) (n / 256 / 256 % 256) (n / 256 / 256 / 256 % 256) = n := by
  unfold u32ofBytes
  omega

/-- Reading the frame of a well-formed entry from the head of a stream yields
exactly that entry and the remaining bytes. -/
theorem readEntryBytes_frame (e : WAL_Entry) (he : EntryWF e) (rest : List Nat) :
    readEntryBytes (frameEntry e ++ rest) = .entry e rest := by
  have hlen := marshalEntry_length_lt e he
  unfold frameEntry
  rw [Nat.mod_eq_of_lt hlen]
  show readEntryBytes (leBytes 4 (marshalEntry e).length ++ marshalEntry e ++ rest) = _
  rw [show leBytes 4 (marshalEntry e).length =
        [(marshalEntry e).length % 256, (marshalEntry e).length / 256 % 256,
         (marshalEntry e).length / 256 / 256 % 256,
         (marshalEntry e).length / 256 / 256 / 256 % 256] from rfl]
  simp only [List.cons_append, List.nil_append, List.append_assoc]
  rw [readEntryBytes]
  simp only [u32ofBytes_le _ hlen]
  have hge : ¬((marshalEntry e ++ rest).length < (marshalEntry e).length) := by
    simp only [List.length_append]
    omega
  simp only [if_neg hge]
  rw [List.take_left, List.drop_left]
  rw [unmarshal_marshal]

/-! ## CRC range facts -/

theorem crcShift_lt {c : Nat} (h : c < 2 ^ 32) : crcShift c < 2 ^ 32 := by
  unfold crcShift
  split
  · exact Nat.xor_lt_two_pow (by omega) (by norm_num)
  · omega

theorem crcByteStep_lt {c b : Nat} (hc : c < 2 ^ 32) (hb : b < 256) :
    crcByteStep c b < 2 ^ 32 := by
  unfold crcByteStep
  have h0 : Nat.xor c b < 2 ^ 32 := Nat.xor_lt_two_pow hc (by omega)
  exact crcShift_lt (crcShift_lt (crcShift_lt (crcShift_lt (crcShift_lt (crcShift_lt
    (crcShift_lt (crcShift_lt h0)))))))

theorem crcUpdate_lt {c : Nat} (hc : c < 2 ^ 32) (bs : List Nat)
    (hb : ∀ b ∈ bs, b < 256) : crcUpdate c bs < 2 ^ 32 := by
  induction bs generalizing c with
  | nil => exact hc
  | cons b tl ih =>
    simp only [crcUpdate, List.foldl_cons] at ih ⊢
    exact ih (crcByteStep_lt hc (hb b (by simp))) (fun x hx => hb x (by simp [hx]))

theorem calculateCRC_lt (data : List Nat) (lsn : Nat) (hb : ∀ b ∈ data, b < 256) :
    calculateCRC data lsn < 2 ^ 32 := by
  unfold calculateCRC
  apply Nat.xor_lt_two_pow _ (by norm_num)
  exact crcUpdate_lt (crcUpdate_lt (by norm_num) data hb) _ (leBytes_lt 8 lsn)

/-! ## One-step unfoldings of the scan loops -/

/-- A successfully framed entry consumes the 4-byte prefix and the body. -/
theorem readEntryBytes_length {bs : List Nat} {e : WAL_Entry} {rest : List Nat}
    (h : readEntryBytes bs = .entry e rest) : rest.length + 4 ≤ bs.length := by
  unfold readEntryBytes at h
  split at h <;> try simp_all
  rename_i b0 b1 b2 b3 tl
  split at h
  · simp_all
  · split at h
    · injection h with h1 h2
      subst h2
      simp only [List.length_drop, List.length_cons]
      omega
    · simp_all

/-- Loop fuel insensitivity: the plain segment scan. -/
theorem raLoopF_congr : ∀ (f1 : Nat), ∀ {f2 : Nat} (bs : List Nat) (acc : List WAL_Entry),
    bs.length < f1 → bs.length < f2 →
    readAllEntriesLoopF f1 bs acc = readAllEntriesLoopF f2 bs acc := by
  intro f1
  induction f1 with
  | zero => intro f2 bs acc h1 h2; omega
  | succ f ih =>
    intro f2 bs acc h1 h2
    match f2 with
    | 0 => omega
    | g + 1 =>
      simp only [readAllEntriesLoopF]
      cases hr : readEntryBytes bs with
      | entry e rest =>
        have hlen := readEntryBytes_length hr
        dsimp only
        by_cases hv : VerifyEntry e
        · simp only [hv, if_true]
          exact ih rest (acc ++ [e]) (by omega) (by omega)
        · simp [hv]
      | eof => rfl
      | errShortPrefix => rfl
      | errShortBody => rfl
      | crashed => rfl

/-- Loop fuel insensitivity: the checkpoint-aware segment scan. -/
theorem ckLoopF_congr : ∀ (f1 : Nat), ∀ {f2 : Nat} (bs : List Nat) (acc : List WAL_Entry)
    (cp : Nat), bs.length < f1 → bs.length < f2 →
    readCkEntriesLoopF f1 bs acc cp = readCkEntriesLoopF f2 bs acc cp := by
  intro f1
  induction f1 with
  | zero => intro f2 bs acc cp h1 h2; omega
  | succ f ih =>
    intro f2 bs acc cp h1 h2
    match f2 with
    | 0 => omega
    | g + 1 =>
      simp only [readCkEntriesLoopF]
      cases hr : readEntryBytes bs with
      | entry e rest =>
        have hlen := readEntryBytes_length hr
        dsimp only
        by_cases hv : VerifyEntry e
        · simp only [hv, if_true]
          by_cases hck : isCk e
          · simp only [hck, if_true]
            exact ih rest [e] e.logSequenceNumber (by omega) (by omega)
          · simp only [hck, Bool.false_eq_true, if_false]
            exact ih rest (acc ++ [e]) cp (by omega) (by omega)
        · simp [hv]
      | eof => rfl
      | errShortPrefix => rfl
      | errShortBody => rfl
      | crashed => rfl

/-- Loop fuel insensitivity: the recovery scan. -/
theorem loadLoopF_congr : ∀ (f1 : Nat), ∀ {f2 : Nat} (bs : List Nat) (last : Nat),
    bs.length < f1 → bs.length < f2 →
    loadLastLSNLoopF f1 bs last = loadLastLSNLoopF f2 bs last := by
  intro f1
  induction f1 with
  | zero => intro f2 bs last h1 h2; omega
  | succ f ih =>
    intro f2 bs last h1 h2
    match f2 with
    | 0 => omega
    | g + 1 =>
      simp only [loadLastLSNLoopF]
      cases hr : readEntryBytes bs with
      | entry e rest =>
        have hlen := readEntryBytes_length hr
        exact ih rest e.logSequenceNumber (by omega) (by omega)
      | eof => rfl
      | errShortPrefix => rfl
      | errShortBody => rfl
      | crashed => rfl

/-- Loop fuel insensitivity: the checkpoint-presence scan. -/
theorem streamNoCkF_congr : ∀ (f1 : Nat), ∀ {f2 : Nat} (bs : List Nat),
    bs.length < f1 → bs.length < f2 → streamNoCkF f1 bs = streamNoCkF f2 bs := by
  intro f1
  induction f1 with
  | zero => intro f2 bs h1 h2; omega
  | succ f ih =>
    intro f2 bs h1 h2
    match f2 with
    | 0 => omega
    | g + 1 =>
      show (match readEntryBytes bs with
        | .entry e rest => !isCk e && streamNoCkF f rest
        | _ => true) =
        (match readEntryBytes bs with
        | .entry e rest => !isCk e && streamNoCkF g rest
        | _ => true)
      cases hr : readEntryBytes bs with
      | entry e rest =>
        have hlen := readEntryBytes_length hr
        dsimp only
        congr 1
        exact ih rest (by omega) (by omega)
      | eof => rfl
      | errShortPrefix => rfl
      | errShortBody => rfl
      | crashed => rfl

/-- The recursion equation of the plain segment scan. -/
theorem readAllEntriesLoop_eq (bs : List Nat) (acc : List WAL_Entry) :
    readAllEntriesLoop bs acc =
      match readEntryBytes bs with
      | .eof => .ok acc
      | .entry e rest =>
        if VerifyEntry e then readAllEntriesLoop rest (acc ++ [e]) else .errCorrupt acc
      | .errShortPrefix => .errRead acc
      | .errShortBody => .errRead acc
      | .crashed => .crashed := by
  show readAllEntriesLoopF (bs.length + 1) bs acc = _
  simp only [readAllEntriesLoopF]
  cases hr : readEntryBytes bs with
  | entry e rest =>
    have hlen := readEntryBytes_length hr
    dsimp only
    by_cases hv : VerifyEntry e
    · simp only [hv, if_true]
      exact raLoopF_congr bs.length rest (acc ++ [e]) (by omega) (by omega)
    · simp [hv]
  | eof => rfl
  | errShortPrefix => rfl
  | errShortBody => rfl
  | crashed => rfl

/-- The recursion equation of the checkpoint-aware segment scan. -/
theorem readCkEntriesLoop_eq (bs : List Nat) (acc : List WAL_Entry) (cp : Nat) :
    readCkEntriesLoop bs acc cp =
      match readEntryBytes bs with
      | .eof => .ok acc cp
      | .entry e rest =>
        if VerifyEntry e then
          if isCk e then readCkEntriesLoop rest [e] e.logSequenceNumber
          else readCkEntriesLoop rest (acc ++ [e]) cp
        else .errCorrupt acc cp
      | .errShortPrefix => .errRead acc cp
      | .errShortBody => .errRead acc cp
      | .crashed => .crashed := by
  show readCkEntriesLoopF (bs.length + 1) bs acc cp = _
  simp only [readCkEntriesLoopF]
  cases hr : readEntryBytes bs with
  | entry e rest =>
    have hlen := readEntryBytes_length hr
    dsimp only
    by_cases hv : VerifyEntry e
    · simp only [hv, if_true]
      by_cases hck : isCk e
      · simp only [hck, if_true]
        exact ckLoopF_congr bs.length rest [e] e.logSequenceNumber (by omega) (by omega)
      · simp only [hck, Bool.false_eq_true, if_false]
        exact ckLoopF_congr bs.length rest (acc ++ [e]) cp (by omega) (by omega)
    · simp [hv]
  | eof => rfl
  | errShortPrefix => rfl
  | errShortBody => rfl
  | crashed => rfl

/-- The recursion equation of the recovery scan. -/
theorem loadLastLSNLoop_eq (bs : List Nat) (last : Nat) :
    loadLastLSNLoop bs last =
      match readEntryBytes bs with
      | .eof => .ok last
      | .entry e rest => loadLastLSNLoop rest e.logSequenceNumber
      | .errShortPrefix => .errRead
      | .errShortBody => .errRead
      | .crashed => .crashed := by
  show loadLastLSNLoopF (bs.length + 1) bs last = _
  simp only [loadLastLSNLoopF]
  cases hr : readEntryBytes bs with
  | entry e rest =>
    have hlen := readEntryBytes_length hr
    dsimp only
    exact loadLoopF_congr bs.length rest e.logSequenceNumber (by omega) (by omega)
  | eof => rfl
  | errShortPrefix => rfl
  | errShortBody => rfl
  | crashed => rfl

/-- The recursion equation of the checkpoint-presence scan. -/
theorem streamNoCk_eq (bs : List Nat) :
    streamNoCk bs =
      match readEntryBytes bs with
      | .entry e rest => !isCk e && streamNoCk rest
      | _ => true := by
  show (match readEntryBytes bs with
    | .entry e rest => !isCk e && streamNoCkF bs.length rest
    | _ => true) = _
  cases hr : readEntryBytes bs with
  | entry e rest =>
    have hlen := readEntryBytes_length hr
    dsimp only
    congr 1
    exact streamNoCkF_congr bs.length rest (by omega) (by omega)
  | eof => rfl
  | errShortPrefix => rfl
  | errShortBody => rfl
  | crashed => rfl

/-- Fuel insensitivity of the buffered write. -/
theorem bufWriteF_congr : ∀ (f1 : Nat), ∀ {f2 : Nat} (w : WalState) (p : List Nat),
    p.length + w.buffer.length < f1 → p.length + w.buffer.length < f2 →
    bufWriteF f1 w p = bufWriteF f2 w p := by
  intro f1
  induction f1 with
  | zero => intro f2 w p h1 h2; omega
  | succ f ih =>
    intro f2 w p h1 h2
    match f2 with
    | 0 => omega
    | g + 1 =>
      simp only [bufWriteF]
      by_cases hfit : p.length ≤ 4096 - w.buffer.length
      · simp [hfit]
      · simp only [hfit, if_false]
        by_cases hemp : w.buffer.length = 0
        · simp [hemp]
        · simp only [hemp, if_false]
          try dsimp only
          cases hs : sinkWrite w (w.buffer ++ p.take (4096 - w.buffer.length)) with
          | error er => rfl
          | ok w2 =>
            dsimp only
            apply ih
            · simp only [List.length_drop, List.length_nil]
              omega
            · simp only [List.length_drop, List.length_nil]
              omega

/-- The recursion equation of the buffered write. -/
theorem bufWrite_eq (w : WalState) (p : List Nat) :
    bufWrite w p =
      if p.length ≤ 4096 - w.buffer.length then .ok { w with buffer := w.buffer ++ p }
      else if w.buffer.length = 0 then sinkWrite w p
      else
        match sinkWrite w (w.buffer ++ p.take (4096 - w.buffer.length)) with
        | .error er => .error er
        | .ok w2 => bufWrite { w2 with buffer := [] } (p.drop (4096 - w.buffer.length)) := by
  show bufWriteF (p.length + w.buffer.length + 1) w p = _
  simp only [bufWriteF]
  by_cases hfit : p.length ≤ 4096 - w.buffer.length
  · simp [hfit]
  · simp only [hfit, if_false]
    by_cases hemp : w.buffer.length = 0
    · simp [hemp]
    · simp only [hemp, if_false]
      try dsimp only
      cases hs : sinkWrite w (w.buffer ++ p.take (4096 - w.buffer.length)) with
      | error er => rfl
      | ok w2 =>
        dsimp only
        exact bufWriteF_congr (p.length + w.buffer.length) _ _
          (by simp only [List.length_drop, List.length_nil]; omega)
          (by simp only [List.length_drop, List.length_nil]; omega)

theorem raLoop_eof {bs : List Nat} (acc : List WAL_Entry) (h : readEntryBytes bs = .eof) :
    readAllEntriesLoop bs acc = .ok acc := by
  rw [readAllEntriesLoop_eq]
  split <;> simp_all

theorem raLoop_entry {bs : List Nat} {e : WAL_Entry} {rest : List Nat} (acc : List WAL_Entry)
    (h : readEntryBytes bs = .entry e rest) :
    readAllEntriesLoop bs acc =
      if VerifyEntry e then readAllEntriesLoop rest (acc ++ [e]) else .errCorrupt acc := by
  rw [readAllEntriesLoop_eq]
  split <;> simp_all

theorem raLoop_shortPrefix {bs : List Nat} (acc : List WAL_Entry)
    (h : readEntryBytes bs = .errShortPrefix) : readAllEntriesLoop bs acc = .errRead acc := by
  rw [readAllEntriesLoop_eq]
  split <;> simp_all

theorem raLoop_shortBody {bs : List Nat} (acc : List WAL_Entry)
    (h : readEntryBytes bs = .errShortBody) : readAllEntriesLoop bs acc = .errRead acc := by
  rw [readAllEntriesLoop_eq]
  split <;> simp_all

theorem raLoop_crashed {bs : List Nat} (acc : List WAL_Entry)
    (h : readEntryBytes bs = .crashed) : readAllEntriesLoop bs acc = .crashed := by
  rw [readAllEntriesLoop_eq]
  split <;> simp_all

theorem ckLoop_eof {bs : List Nat} (acc : List WAL_Entry) (cp : Nat)
    (h : readEntryBytes bs = .eof) : readCkEntriesLoop bs acc cp = .ok acc cp := by
  rw [readCkEntriesLoop_eq]
  split <;> simp_all

theorem ckLoop_entry {bs : List Nat} {e : WAL_Entry} {rest : List Nat}
    (acc : List WAL_Entry) (cp : Nat) (h : readEntryBytes bs = .entry e rest) :
    readCkEntriesLoop bs acc cp =
      if VerifyEntry e then
        if isCk e then readCkEntriesLoop rest [e] e.logSequenceNumber
        else readCkEntriesLoop rest (acc ++ [e]) cp
      else .errCorrupt acc cp := by
  rw [readCkEntriesLoop_eq]
  split <;> simp_all

theorem ckLoop_shortPrefix {bs : List Nat} (acc : List WAL_Entry) (cp : Nat)
    (h : readEntryBytes bs = .errShortPrefix) :
    readCkEntriesLoop bs acc cp = .errRead acc cp := by
  rw [readCkEntriesLoop_eq]
  split <;> simp_all

theorem ckLoop_shortBody {bs : List Nat} (acc : List WAL_Entry) (cp : Nat)
    (h : readEntryBytes bs = .errShortBody) :
    readCkEntriesLoop bs acc cp = .errRead acc cp := by
  rw [readCkEntriesLoop_eq]
  split <;> simp_all

theorem ckLoop_crashed {bs : List Nat} (acc : List WAL_Entry) (cp : Nat)
    (h : readEntryBytes bs = .crashed) : readCkEntriesLoop bs acc cp = .crashed := by
  rw [readCkEntriesLoop_eq]
  split <;> simp_all

theorem loadLoop_eof {bs : List Nat} (last : Nat) (h : readEntryBytes bs = .eof) :
    loadLastLSNLoop bs last = .ok last := by
  rw [loadLastLSNLoop_eq]
  split <;> simp_all

theorem loadLoop_entry {bs : List Nat} {e : WAL_Entry} {rest : List Nat} (last : Nat)
    (h : readEntryBytes bs = .entry e rest) :
    loadLastLSNLoop bs last = loadLastLSNLoop rest e.logSequenceNumber := by
  rw [loadLastLSNLoop_eq]
  split <;> simp_all

theorem loadLoop_shortPrefix {bs : List Nat} (last : Nat)
    (h : readEntryBytes bs = .errShortPrefix) : loadLastLSNLoop bs last = .errRead := by
  rw [loadLastLSNLoop_eq]
  split <;> simp_all

theorem loadLoop_shortBody {bs : List Nat} (last : Nat)
    (h : readEntryBytes bs = .errShortBody) : loadLastLSNLoop bs last = .errRead := by
  rw [loadLastLSNLoop_eq]
  split <;> simp_all

theorem loadLoop_crashed {bs : List Nat} (last : Nat)
    (h : readEntryBytes bs = .crashed) : loadLastLSNLoop bs last = .crashed := by
  rw [loadLastLSNLoop_eq]
  split <;> simp_all

theorem streamNoCk_entry {bs : List Nat} {e : WAL_Entry} {rest : List Nat}
    (h : readEntryBytes bs = .entry e rest) :
    streamNoCk bs = (!isCk e && streamNoCk rest) := by
  rw [streamNoCk_eq]
  split <;> simp_all

theorem streamNoCk_other {bs : List Nat}
    (h : ∀ e rest, readEntryBytes bs ≠ .entry e rest) : streamNoCk bs = true := by
  rw [streamNoCk_eq]
  split <;> first
    | rfl
    | (rename_i e rest heq; exact absurd heq (h e rest))

/-! ## Scanning a stream of well-formed frames -/

theorem framesConcat_nil : framesConcat [] = [] := rfl

theorem framesConcat_cons (e : WAL_Entry) (es : List WAL_Entry) :
    framesConcat (e :: es) = frameEntry e ++ framesConcat es := by
  simp [framesConcat]

theorem readEntryBytes_nil : readEntryBytes [] = .eof := rfl

theorem readAllEntriesLoop_frames (es : List WAL_Entry) (tail : List Nat)
    (acc : List WAL_Entry) (hwf : ∀ e ∈ es, EntryWF e)
    (hv : ∀ e ∈ es, VerifyEntry e = true) :
    readAllEntriesLoop (framesConcat es ++ tail) acc = readAllEntriesLoop tail (acc ++ es) := by
  induction es generalizing acc with
  | nil => rw [framesConcat_nil, List.nil_append, List.append_nil]
  | cons e tl ih =>
    rw [framesConcat_cons, List.append_assoc,
      raLoop_entry acc (readEntryBytes_frame e (hwf e (by simp)) _)]
    simp only [hv e (by simp), if_true]
    rw [ih (acc ++ [e]) (fun x hx => hwf x (by simp [hx])) (fun x hx => hv x (by simp [hx]))]
    simp

theorem readAllEntriesLoop_frames_ok (es : List WAL_Entry) (hwf : ∀ e ∈ es, EntryWF e)
    (hv : ∀ e ∈ es, VerifyEntry e = true) :
    readAllEntriesLoop (framesConcat es) [] = .ok es := by
  have h := readAllEntriesLoop_frames es [] [] hwf hv
  simp only [List.append_nil, List.nil_append] at h
  rw [h, raLoop_eof es readEntryBytes_nil]

theorem lsnsOf_getLastD (e : WAL_Entry) (tl : List WAL_Entry) (last : Nat) :
    (lsnsOf (e :: tl)).getLastD last = (lsnsOf tl).getLastD e.logSequenceNumber := by
  simp only [lsnsOf, List.map_cons, List.getLastD_cons]

theorem loadLastLSNLoop_frames (es : List WAL_Entry) (tail : List Nat) (last : Nat)
    (hwf : ∀ e ∈ es, EntryWF e) :
    loadLastLSNLoop (framesConcat es ++ tail) last =
      loadLastLSNLoop tail ((lsnsOf es).getLastD last) := by
  induction es generalizing last with
  | nil => rw [framesConcat_nil, List.nil_append]; rfl
  | cons e tl ih =>
    rw [framesConcat_cons, List.append_assoc,
      loadLoop_entry last (readEntryBytes_frame e (hwf e (by simp)) _)]
    rw [ih _ (fun x hx => hwf x (by simp [hx]))]
    rw [lsnsOf_getLastD e tl last]

theorem loadLastLSNLoop_frames_ok (es : List WAL_Entry) (last : Nat)
    (hwf : ∀ e ∈ es, EntryWF e) :
    loadLastLSNLoop (framesConcat es) last = .ok ((lsnsOf es).getLastD last) := by
  have h := loadLastLSNLoop_frames es [] last hwf
  simp only [List.append_nil] at h
  rw [h, loadLoop_eof _ readEntryBytes_nil]

/-- Splitting an append equation at a known shorter prefix. -/
theorem append_split {α : Type} {p q a b : List α} (h : p ++ q = a ++ b)
    (hl : a.length ≤ p.length) : ∃ r, p = a ++ r ∧ r ++ q = b := by
  refine ⟨p.drop a.length, ?_, ?_⟩
  · have h1 : (p ++ q).take a.length = a := by
      rw [h, List.take_append_of_le_length (Nat.le_refl _), List.take_length]
    rw [List.take_append_of_le_length hl] at h1
    conv_lhs => rw [← List.take_append_drop a.length p]
    rw [h1]
  · have h2 : (p ++ q).drop a.length = b := by
      rw [h, List.drop_append_of_le_length (Nat.le_refl _), List.drop_length]
      simp
    rw [List.drop_append_of_le_length hl] at h2
    rw [← h2]

/-- What the reader does on a proper prefix of a frame: nothing (empty), or a
torn-frame error; never a successful entry. -/
theorem readEntryBytes_strict_prefix (e : WAL_Entry) (he : EntryWF e) (p : List Nat)
    (hlt : p.length < (frameEntry e).length) (hpref : p = (frameEntry e).take p.length) :
    p = [] ∨ readEntryBytes p = .errShortPrefix ∨ readEntryBytes p = .errShortBody := by
  have hlen := marshalEntry_length_lt e he
  match hp : p with
  | [] => exact Or.inl rfl
  | [_] => exact Or.inr (Or.inl rfl)
  | [_, _] => exact Or.inr (Or.inl rfl)
  | [_, _, _] => exact Or.inr (Or.inl rfl)
  | b0 :: b1 :: b2 :: b3 :: prest =>
    refine Or.inr (Or.inr ?_)
    have hfr : frameEntry e =
        (marshalEntry e).length % 256 :: (marshalEntry e).length / 256 % 256 ::
        (marshalEntry e).length / 256 / 256 % 256 ::
        (marshalEntry e).length / 256 / 256 / 256 % 256 :: marshalEntry e := by
      unfold frameEntry
      rw [Nat.mod_eq_of_lt hlen]
      rfl
    rw [hfr] at hpref hlt
    simp only [List.length_cons, List.take_succ_cons] at hpref hlt
    obtain ⟨e0, e1, e2, e3, hrest⟩ : b0 = (marshalEntry e).length % 256 ∧
        b1 = (marshalEntry e).length / 256 % 256 ∧
        b2 = (marshalEntry e).length / 256 / 256 % 256 ∧
        b3 = (marshalEntry e).length / 256 / 256 / 256 % 256 ∧
        prest = (marshalEntry e).take prest.length := by
      have := hpref
      simp only [List.cons.injEq] at this
      exact ⟨this.1, this.2.1, this.2.2.1, this.2.2.2.1, this.2.2.2.2⟩
    rw [readEntryBytes]
    subst e0; subst e1; subst e2; subst e3
    rw [u32ofBytes_le _ hlen]
    have hplen : prest.length < (marshalEntry e).length := by omega
    simp [if_pos hplen]

/-- If a successful plain scan is obtained from a byte string that is a prefix
of a well-formed frame stream, the entries read are a prefix of the stream's
entries. -/
theorem readAllEntriesLoop_prefix :
    ∀ (es : List WAL_Entry) (p q : List Nat) (acc res : List WAL_Entry),
      (∀ e ∈ es, EntryWF e) → (∀ e ∈ es, VerifyEntry e = true) →
      p ++ q = framesConcat es →
      readAllEntriesLoop p acc = .ok res →
      ∃ t, res = acc ++ es.take t := by
  intro es
  induction es with
  | nil =>
    intro p q acc res _ _ hpq hloop
    rw [framesConcat_nil] at hpq
    have hp : p = [] := (List.append_eq_nil.mp hpq).1
    subst hp
    rw [raLoop_eof acc readEntryBytes_nil] at hloop
    have hres : acc = res := by simpa using hloop
    exact ⟨0, by simp [hres.symm]⟩
  | cons e tl ih =>
    intro p q acc res hwf hv hpq hloop
    rw [framesConcat_cons] at hpq
    by_cases hl : (frameEntry e).length ≤ p.length
    · obtain ⟨p2, hp2, hq2⟩ := append_split hpq hl
      subst hp2
      rw [raLoop_entry acc (readEntryBytes_frame e (hwf e (by simp)) _)] at hloop
      simp only [hv e (by simp), if_true] at hloop
      obtain ⟨t, ht⟩ := ih p2 q (acc ++ [e]) res
        (fun x hx => hwf x (by simp [hx])) (fun x hx => hv x (by simp [hx])) hq2 hloop
      exact ⟨t + 1, by simp [ht]⟩
    · push_neg at hl
      have hpref : p = (frameEntry e).take p.length := by
        have h1 : (p ++ (q)).take p.length = p := by
          rw [List.take_append_of_le_length (Nat.le_refl _), List.take_length]
        rw [hpq, List.take_append_of_le_length (Nat.le_of_lt hl)] at h1
        exact h1.symm
      rcases readEntryBytes_strict_prefix e (hwf e (by simp)) p hl hpref with h | h | h
      · subst h
        rw [raLoop_eof acc readEntryBytes_nil] at hloop
        have hres : acc = res := by simpa using hloop
        exact ⟨0, by simp [hres.symm]⟩
      · rw [raLoop_shortPrefix acc h] at hloop
        exact absurd hloop (by simp)
      · rw [raLoop_shortBody acc h] at hloop
        exact absurd hloop (by simp)

/-- A checkpoint-free stream makes the checkpoint scan degenerate to the plain
scan with an untouched checkpoint LSN. -/
theorem ckLoop_of_noCk :
    ∀ (n : Nat) (bs : List Nat), bs.length ≤ n → streamNoCk bs = true →
      ∀ (acc : List WAL_Entry) (cp : Nat),
        readCkEntriesLoop bs acc cp = ckOfSeg (readAllEntriesLoop bs acc) cp := by
  intro n
  induction n with
  | zero =>
    intro bs hn _ acc cp
    have hbs : bs = [] := List.eq_nil_of_length_eq_zero (by omega)
    subst hbs
    rw [ckLoop_eof acc cp readEntryBytes_nil, raLoop_eof acc readEntryBytes_nil]
    rfl
  | succ n ihn =>
    intro bs hn hnc acc cp
    match hr : readEntryBytes bs with
    | .eof =>
      rw [ckLoop_eof acc cp hr, raLoop_eof acc hr]
      rfl
    | .entry e rest =>
      have hlen := readEntryBytes_length hr
      rw [streamNoCk_entry hr] at hnc
      simp only [Bool.and_eq_true, Bool.not_eq_true'] at hnc
      rw [ckLoop_entry acc cp hr, raLoop_entry acc hr, hnc.1]
      by_cases hvv : VerifyEntry e
      · simp only [hvv, if_true, Bool.false_eq_true, if_false]
        exact ihn rest (by omega) hnc.2 (acc ++ [e]) cp
      · simp only [hvv, if_false]
        rfl
    | .errShortPrefix =>
      rw [ckLoop_shortPrefix acc cp hr, raLoop_shortPrefix acc hr]
      rfl
    | .errShortBody =>
      rw [ckLoop_shortBody acc cp hr, raLoop_shortBody acc hr]
      rfl
    | .crashed =>
      rw [ckLoop_crashed acc cp hr, raLoop_crashed acc hr]
      rfl

/-- On a directory whose segments yield no checkpoint record, the
checkpoint-based read walks the segments exactly like the plain read. -/
theorem readCkFrom_noCk (st : Store) :
    ∀ (ids : List Nat) (acc : List WAL_Entry),
      (∀ id ∈ ids, ∀ c, segBytes st id = some c → streamNoCk c = true) →
      readCkFrom st ids acc 0 = readAllFrom st ids acc := by
  intro ids
  induction ids with
  | nil => intro acc _; rfl
  | cons id rest ih =>
    intro acc hnc
    rw [readCkFrom, readAllFrom]
    cases hseg : segBytes st id with
    | none => rfl
    | some content =>
      dsimp only
      rw [ckLoop_of_noCk content.length content (Nat.le_refl _)
        (hnc id (by simp) content hseg) [] 0]
      cases hscan : readAllEntriesLoop content [] with
      | ok es =>
        simp only [ckOfSeg]
        rw [if_neg (by omega)]
        exact ih (acc ++ es) (fun i hi c hc => hnc i (by simp [hi]) c hc)
      | errRead es => rfl
      | errCorrupt es => rfl
      | crashed => rfl

/-! ## Segment store lemmas -/

theorem segBytes_cons_self {a : Nat} {c : List Nat} (tl : Store) :
    segBytes ((a, c) :: tl) a = some c := by
  simp [segBytes, List.find?_cons]

theorem segBytes_cons_other {a j : Nat} {c : List Nat} (tl : Store) (h : a ≠ j) :
    segBytes ((a, c) :: tl) j = segBytes tl j := by
  simp [segBytes, List.find?_cons, h]

theorem segBytes_nil (j : Nat) : segBytes [] j = none := rfl

theorem segBytes_append_left {st : Store} (st2 : Store) {id : Nat} {c : List Nat}
    (h : segBytes st id = some c) : segBytes (st ++ st2) id = some c := by
  induction st with
  | nil => simp [segBytes_nil] at h
  | cons q tl ih =>
    obtain ⟨a, b⟩ := q
    by_cases ha : a = id
    · subst ha
      rw [segBytes_cons_self] at h
      rw [List.cons_append, segBytes_cons_self]
      exact h
    · rw [segBytes_cons_other tl ha] at h
      rw [List.cons_append, segBytes_cons_other _ ha]
      exact ih h

theorem segBytes_not_found {st : Store} {id : Nat}
    (h : ¬ id ∈ st.map Prod.fst) : segBytes st id = none := by
  induction st with
  | nil => rfl
  | cons q tl ih =>
    obtain ⟨a, b⟩ := q
    simp only [List.map_cons, List.mem_cons] at h
    push_neg at h
    rw [segBytes_cons_other tl (fun hc => h.1 hc.symm)]
    exact ih h.2

theorem appendSegment_cons (a : Nat) (c : List Nat) (tl : Store) (id : Nat) (p : List Nat) :
    appendSegment ((a, c) :: tl) id p =
      (if a = id then (a, c ++ p) else (a, c)) :: appendSegment tl id p := by
  simp only [appendSegment, List.map_cons]

theorem segBytes_appendSegment_self (st : Store) (id : Nat) (p : List Nat) :
    segBytes (appendSegment st id p) id = (segBytes st id).map (fun c => c ++ p) := by
  induction st with
  | nil => rfl
  | cons q tl ih =>
    obtain ⟨a, c⟩ := q
    rw [appendSegment_cons]
    by_cases ha : a = id
    · subst ha
      rw [if_pos rfl, segBytes_cons_self, segBytes_cons_self]
      rfl
    · rw [if_neg ha, segBytes_cons_other _ ha, segBytes_cons_other _ ha]
      exact ih

theorem segBytes_appendSegment_other (st : Store) (id j : Nat) (p : List Nat) (hj : j ≠ id) :
    segBytes (appendSegment st id p) j = segBytes st j := by
  induction st with
  | nil => rfl
  | cons q tl ih =>
    obtain ⟨a, c⟩ := q
    rw [appendSegment_cons]
    by_cases ha : a = id
    · subst ha
      rw [if_pos rfl, segBytes_cons_other _ (fun hc => hj hc.symm),
        segBytes_cons_other _ (fun hc => hj hc.symm)]
      exact ih
    · rw [if_neg ha]
      by_cases haj : a = j
      · subst haj
        rw [segBytes_cons_self, segBytes_cons_self]
      · rw [segBytes_cons_other _ haj, segBytes_cons_other _ haj]
        exact ih

theorem appendSegment_map_fst (st : Store) (id : Nat) (p : List Nat) :
    (appendSegment st id p).map Prod.fst = st.map Prod.fst := by
  induction st with
  | nil => rfl
  | cons q tl ih =>
    obtain ⟨a, c⟩ := q
    rw [appendSegment_cons]
    by_cases ha : a = id <;> simp [ha, ih]

theorem deleteSegment_cons (a : Nat) (c : List Nat) (tl : Store) (id : Nat) :
    deleteSegment ((a, c) :: tl) id =
      if a = id then deleteSegment tl id else (a, c) :: deleteSegment tl id := by
  simp only [deleteSegment, List.filter]
  by_cases ha : a = id <;> simp [ha]

theorem deleteSegment_map_fst (st : Store) (id : Nat) :
    (deleteSegment st id).map Prod.fst = (st.map Prod.fst).filter (fun j => j ≠ id) := by
  induction st with
  | nil => rfl
  | cons q tl ih =>
    obtain ⟨a, c⟩ := q
    rw [deleteSegment_cons]
    by_cases ha : a = id <;> simp [ha, List.filter, ih]

theorem segBytes_deleteSegment_other (st : Store) (id j : Nat) (hj : j ≠ id) :
    segBytes (deleteSegment st id) j = segBytes st j := by
  induction st with
  | nil => rfl
  | cons q tl ih =>
    obtain ⟨a, c⟩ := q
    rw [deleteSegment_cons]
    by_cases ha : a = id
    · rw [if_pos ha, segBytes_cons_other tl (fun hc => hj (hc.symm.trans ha))]
      exact ih
    · rw [if_neg ha]
      by_cases haj : a = j
      · subst haj
        rw [segBytes_cons_self, segBytes_cons_self]
      · rw [segBytes_cons_other _ haj, segBytes_cons_other _ haj]
        exact ih

theorem createSegment_of_found {st : Store} {id : Nat} {c : List Nat}
    (h : segBytes st id = some c) : createSegment st id = st := by
  unfold createSegment
  unfold segBytes at h
  have hs : (st.find? (fun p => p.fst = id)).isSome := by
    cases hf : st.find? (fun p => p.fst = id) <;> simp [hf] at h ⊢
  simp [hs]

theorem createSegment_of_missing {st : Store} {id : Nat}
    (h : segBytes st id = none) : createSegment st id = st ++ [(id, [])] := by
  unfold createSegment
  unfold segBytes at h
  have hs : ¬(st.find? (fun p => p.fst = id)).isSome := by
    cases hf : st.find? (fun p => p.fst = id) <;> simp [hf] at h ⊢
  simp [hs]

/-! ## Sorting lemmas for ListSegments -/

theorem insertIdSorted_le (n : Nat) (l : List Nat) (h : List.Chain' (· ≤ ·) l)
    (hn : ∀ m ∈ l, n ≤ m) : insertIdSorted n l = n :: l := by
  cases l with
  | nil => rfl
  | cons m tl => simp [insertIdSorted, hn m (by simp)]

theorem chain'_le_head : ∀ (a : Nat) (l : List Nat),
    List.Chain' (· ≤ ·) (a :: l) → ∀ m ∈ l, a ≤ m := by
  intro a l
  induction l generalizing a with
  | nil => simp
  | cons b tl ih =>
    intro h m hm
    have hab : a ≤ b := (List.chain'_cons.mp h).1
    rcases List.mem_cons.mp hm with h1 | h1
    · omega
    · exact Nat.le_trans hab (ih b (List.chain'_cons.mp h).2 m h1)

theorem sortIds_sorted_id : ∀ l : List Nat, List.Chain' (· ≤ ·) l → sortIds l = l := by
  intro l
  induction l with
  | nil => intro _; rfl
  | cons a tl ih =>
    intro h
    have htl : List.Chain' (· ≤ ·) tl := h.tail
    have hs : sortIds (a :: tl) = insertIdSorted a (sortIds tl) := rfl
    rw [hs, ih htl]
    exact insertIdSorted_le a tl htl (chain'_le_head a tl h)

theorem listSegments_of_sorted (st : Store)
    (h : List.Chain' (· < ·) (st.map Prod.fst)) :
    listSegments st = st.map Prod.fst := by
  unfold listSegments
  apply sortIds_sorted_id
  exact h.imp (fun _ _ hlt => Nat.le_of_lt hlt)

/-! ## Effects of the buffered writer on the state -/

theorem writerEffect_refl (w : WalState) : WriterEffect w w [] := by
  refine ⟨rfl, rfl, rfl, rfl, rfl, fun j _ => rfl, fun cur hc => ⟨cur, hc, by simp⟩⟩

theorem writerEffect_trans {w w2 w3 : WalState} {p q : List Nat}
    (h1 : WriterEffect w w2 p) (h2 : WriterEffect w2 w3 q) :
    WriterEffect w w3 (p ++ q) := by
  obtain ⟨c1, l1, s1, y1, m1, o1, b1⟩ := h1
  obtain ⟨c2, l2, s2, y2, m2, o2, b2⟩ := h2
  refine ⟨c2.trans c1, l2.trans l1, s2.trans s1, y2.trans y1, m2.trans m1, ?_, ?_⟩
  · intro j hj
    rw [c1] at o2
    exact (o2 j hj).trans (o1 j hj)
  · intro cur hc
    obtain ⟨cur2, hcur2, heq2⟩ := b1 cur hc
    rw [← c1] at hcur2
    obtain ⟨cur3, hcur3, heq3⟩ := b2 cur2 hcur2
    rw [c1] at hcur3
    refine ⟨cur3, hcur3, ?_⟩
    rw [heq3, heq2]
    simp

theorem sinkWrite_ok {w : WalState} {p : List Nat} {w2 : WalState}
    (h : sinkWrite w p = .ok w2) :
    w2 = { w with store := appendSegment w.store w.currentSegment p } ∧
      w.sinkClosed = false := by
  unfold sinkWrite at h
  split at h
  · simp at h
  · cases hc : segBytes w.store w.currentSegment with
    | none => rw [hc] at h; simp at h
    | some cur =>
      rw [hc] at h
      simp only [Except.ok.injEq] at h
      refine ⟨h.symm, by simp_all⟩

/-- The state obtained by appending bytes to the current segment file and
setting the buffer is a writer effect whenever the moved bytes balance. -/
theorem writerEffect_append (w : WalState) (q b2 p : List Nat)
    (hqp : q ++ b2 = w.buffer ++ p) :
    WriterEffect w { w with store := appendSegment w.store w.currentSegment q, buffer := b2 }
      p := by
  refine ⟨rfl, rfl, rfl, rfl, appendSegment_map_fst _ _ _,
    fun j hj => segBytes_appendSegment_other _ _ _ _ hj, ?_⟩
  intro cur hc
  refine ⟨cur ++ q, ?_, ?_⟩
  · rw [segBytes_appendSegment_self, hc]
    rfl
  · simp only []
    rw [List.append_assoc, hqp, ← List.append_assoc]

theorem flushBuf_ok {w : WalState} {w2 : WalState}
    (h : flushBuf w = .ok w2) : WriterEffect w w2 [] ∧ w2.buffer = [] := by
  unfold flushBuf at h
  split at h
  · rename_i hb
    simp only [Except.ok.injEq] at h
    subst h
    exact ⟨writerEffect_refl w, hb⟩
  · cases hs : sinkWrite w w.buffer with
    | error er => rw [hs] at h; simp [Except.map] at h
    | ok wmid =>
      rw [hs] at h
      simp only [Except.map, Except.ok.injEq] at h
      subst h
      obtain ⟨hmid, _⟩ := sinkWrite_ok hs
      subst hmid
      exact ⟨writerEffect_append w w.buffer [] [] (by simp), rfl⟩

theorem bufWrite_ok : ∀ (n : Nat) (w : WalState) (p : List Nat) (w2 : WalState),
    p.length + w.buffer.length ≤ n → bufWrite w p = .ok w2 →
    WriterEffect w w2 p := by
  intro n
  induction n using Nat.strong_induction_on with
  | _ n ih =>
    intro w p w2 hn h
    rw [bufWrite_eq] at h
    split_ifs at h with h1 h2
    · simp only [Except.ok.injEq] at h
      subst h
      refine ⟨rfl, rfl, rfl, rfl, rfl, fun j _ => rfl, fun cur hc => ⟨cur, hc, by simp⟩⟩
    · obtain ⟨hmid, _⟩ := sinkWrite_ok h
      subst hmid
      have hb : w.buffer = [] := List.eq_nil_of_length_eq_zero h2
      have := writerEffect_append w p w.buffer p (by rw [hb]; simp)
      exact this
    · try dsimp only at h
      cases hs : sinkWrite w (w.buffer ++ p.take (4096 - w.buffer.length)) with
      | error er => rw [hs] at h; simp at h
      | ok wmid =>
        rw [hs] at h
        obtain ⟨hmid, _⟩ := sinkWrite_ok hs
        subst hmid
        have hrec := ih (p.length + w.buffer.length - 1) (by omega)
          _ (p.drop (4096 - w.buffer.length)) w2
          (by
            simp only [List.length_drop, List.length_nil]
            omega) h
        have hstep : WriterEffect w
            { w with
                store := appendSegment w.store w.currentSegment
                  (w.buffer ++ p.take (4096 - w.buffer.length)),
                buffer := [] }
            (p.take (4096 - w.buffer.length)) :=
          writerEffect_append w (w.buffer ++ p.take (4096 - w.buffer.length)) [] _ (by simp)
        have := writerEffect_trans hstep hrec
        rwa [List.take_append_drop] at this

theorem writerSync_ok {w : WalState} {w2 : WalState}
    (h : writerSync w = .ok w2) : WriterEffect w w2 [] ∧ w2.buffer = [] := by
  unfold writerSync at h
  cases hf : flushBuf w with
  | error er => rw [hf] at h; simp at h
  | ok wmid =>
    rw [hf] at h
    obtain ⟨he, hb⟩ := flushBuf_ok hf
    dsimp only at h
    split_ifs at h with hy hc
    all_goals first
      | (exfalso; simp at h; done)
      | (have hw : wmid = w2 := by injection h
         subst hw
         exact ⟨he, hb⟩)
      | (have hw : { wmid with stableRequested := true } = w2 := by injection h
         subst hw
         obtain ⟨c1, l1, s1, y1, m1, o1, b1⟩ := he
         exact ⟨⟨c1, l1, s1, y1, m1, o1, b1⟩, hb⟩)

theorem writerWriteEntry_ok {w : WalState} {e : WAL_Entry} {w2 : WalState}
    (h : writerWriteEntry w e = .ok w2) :
    WriterEffect w w2 (leBytes 4 ((marshalEntry e).length % 2 ^ 32) ++ marshalEntry e) := by
  unfold writerWriteEntry at h
  cases h1 : bufWrite w (leBytes 4 ((marshalEntry e).length % 2 ^ 32)) with
  | error er => rw [h1] at h; simp at h
  | ok wmid =>
    rw [h1] at h
    have e1 := bufWrite_ok _ w _ wmid (Nat.le_refl _) h1
    have e2 := bufWrite_ok _ wmid _ w2 (Nat.le_refl _) h
    exact writerEffect_trans e1 e2

/-! ## Further store helpers for the invariant -/

theorem segBytes_append_right {st : Store} (st2 : Store) {id : Nat}
    (h : ¬ id ∈ st.map Prod.fst) : segBytes (st ++ st2) id = segBytes st2 id := by
  induction st with
  | nil => rfl
  | cons q tl ih =>
    obtain ⟨a, b⟩ := q
    simp only [List.map_cons, List.mem_cons] at h
    push_neg at h
    rw [List.cons_append, segBytes_cons_other _ (fun hc => h.1 hc.symm)]
    exact ih h.2

theorem segBytes_isSome_of_mem {st : Store} {id : Nat}
    (h : id ∈ st.map Prod.fst) : ∃ c, segBytes st id = some c := by
  induction st with
  | nil => simp at h
  | cons q tl ih =>
    obtain ⟨a, b⟩ := q
    by_cases ha : a = id
    · subst ha
      exact ⟨b, segBytes_cons_self tl⟩
    · simp only [List.map_cons, List.mem_cons] at h
      rcases h with h | h
      · omega
      · rw [segBytes_cons_other _ ha]
        exact ih h

theorem deleteSegment_not_found {st : Store} {id : Nat}
    (h : ¬ id ∈ st.map Prod.fst) : deleteSegment st id = st := by
  induction st with
  | nil => rfl
  | cons q tl ih =>
    obtain ⟨a, b⟩ := q
    simp only [List.map_cons, List.mem_cons] at h
    push_neg at h
    rw [deleteSegment_cons, if_neg (fun hc => h.1 hc.symm), ih h.2]

/-- Stores with the same (duplicate-free) key sequence and the same content at
every key are equal. -/
theorem store_ext : ∀ (st1 st2 : Store), st1.map Prod.fst = st2.map Prod.fst →
    (st1.map Prod.fst).Nodup →
    (∀ id ∈ st1.map Prod.fst, segBytes st1 id = segBytes st2 id) → st1 = st2 := by
  intro st1
  induction st1 with
  | nil =>
    intro st2 hm _ _
    cases st2 with
    | nil => rfl
    | cons q tl => simp at hm
  | cons q tl ih =>
    intro st2 hm hnd hseg
    obtain ⟨a, b⟩ := q
    cases st2 with
    | nil => simp at hm
    | cons q2 tl2 =>
      obtain ⟨a2, b2⟩ := q2
      simp only [List.map_cons, List.cons.injEq] at hm
      obtain ⟨ha, htl⟩ := hm
      subst ha
      have hb : b = b2 := by
        have := hseg a (by simp)
        rw [segBytes_cons_self, segBytes_cons_self] at this
        injection this
      subst hb
      have hnd2 : (tl.map Prod.fst).Nodup := (List.nodup_cons.mp hnd).2
      have hna : ¬ a ∈ tl.map Prod.fst := (List.nodup_cons.mp hnd).1
      have htl2 : tl = tl2 := by
        apply ih tl2 htl hnd2
        intro id hid
        have hia : a ≠ id := fun hc => hna (hc ▸ hid)
        have := hseg id (by simp [hid])
        rwa [segBytes_cons_other _ hia, segBytes_cons_other _ hia] at this
      rw [htl2]

theorem mapped_pre_fst (pre : List (Nat × List WAL_Entry)) :
    (pre.map (fun q => (q.fst, framesConcat q.snd))).map Prod.fst = pre.map Prod.fst := by
  simp [List.map_map, Function.comp]

/-! ## Chain and range helpers -/

theorem chain'_lt_nodup {l : List Nat} (h : List.Chain' (· < ·) l) : l.Nodup := by
  have hp : List.Pairwise (· < ·) l := List.chain'_iff_pairwise.mp h
  exact List.Pairwise.imp (fun hlt => Nat.ne_of_lt hlt) hp

theorem chain'_lt_last_lt {l : List Nat} {c z : Nat}
    (h : List.Chain' (· < ·) (l ++ [c])) (hz : c < z) :
    List.Chain' (· < ·) (l ++ [c] ++ [z]) := by
  rw [List.append_assoc]
  rw [List.chain'_append] at h ⊢
  refine ⟨h.1, ?_, ?_⟩
  · simp only [List.cons_append, List.nil_append]
    exact List.chain'_pair.mpr hz
  · intro x hx y hy
    simp only [List.cons_append, List.nil_append, List.head?_cons, Option.mem_def,
      Option.some.injEq] at hy
    subst hy
    exact h.2.2 x hx c (by simp)

theorem chain'_range'_succ : ∀ (n s : Nat),
    List.Chain' (fun a b => b = a + 1) (List.range' s n) := by
  intro n
  induction n with
  | zero => intro s; simp
  | succ n ih =>
    intro s
    rw [List.range'_succ]
    cases n with
    | zero => simp
    | succ m =>
      rw [List.chain'_cons']
      refine ⟨?_, ih (s + 1)⟩
      intro y hy
      rw [List.range'_succ] at hy
      simp at hy
      omega

theorem take_range' : ∀ (k n s : Nat),
    (List.range' s n).take k = List.range' s (min k n) := by
  intro k
  induction k with
  | zero => simp
  | succ k ih =>
    intro n s
    cases n with
    | zero => simp
    | succ m =>
      rw [List.range'_succ, List.take_succ_cons, ih m (s + 1)]
      have hm : min (k + 1) (m + 1) = min k m + 1 := by omega
      rw [hm, List.range'_succ]

/-- A record list whose LSNs are a contiguous range is chained by successor and
starts at the range base. -/
theorem chain_of_lsns_range {es : List WAL_Entry} {L : Nat}
    (h : lsnsOf es = List.range' L es.length) :
    List.Chain' (fun a b => b.logSequenceNumber = a.logSequenceNumber + 1) es ∧
      (∀ e0, es.head? = some e0 → e0.logSequenceNumber = L) := by
  constructor
  · have hc : List.Chain' (fun a b => b = a + 1) (lsnsOf es) := by
      rw [h]
      exact chain'_range'_succ _ _
    unfold lsnsOf at hc
    rw [List.chain'_map] at hc
    exact hc
  · intro e0 he0
    have : (lsnsOf es).head? = some e0.logSequenceNumber := by
      unfold lsnsOf
      rw [List.head?_map, he0]
      rfl
    rw [h] at this
    cases es with
    | nil => simp at he0
    | cons x xs =>
      simp only [List.length_cons, List.range'_succ, List.head?_cons] at this
      injection this with hv
      omega

/-! ## Invariant preservation -/

theorem chain'_lt_mem_lt_last {l : List Nat} {c : Nat}
    (h : List.Chain' (· < ·) (l ++ [c])) : ∀ x ∈ l, x < c := by
  have hp := List.chain'_iff_pairwise.mp h
  rw [List.pairwise_append] at hp
  intro x hx
  exact hp.2.2 x hx c (by simp)

/-- Dropping a leading block from a contiguously numbered record list leaves a
contiguously numbered list starting after the block. -/
theorem lsns_drop_first {front rest : List WAL_Entry} {L : Nat}
    (h : lsnsOf (front ++ rest) = List.range' L (front ++ rest).length) :
    lsnsOf rest = List.range' (L + front.length) rest.length := by
  unfold lsnsOf at h ⊢
  rw [List.map_append, List.length_append] at h
  have hsplit := (List.range'_append_1 L front.length rest.length).symm
  rw [Nat.add_comm front.length rest.length, hsplit] at h
  have := List.append_inj h (by simp)
  exact this.2

/-- After a successful writer sync, the store is the flushed image of the
invariant decomposition. -/
theorem synced_store_shape {w w1 : WalState}
    {pre : List (Nat × List WAL_Entry)} {lb : List Nat} {lastE : List WAL_Entry}
    (hst : w.store = pre.map (fun q => (q.fst, framesConcat q.snd)) ++ [(w.currentSegment, lb)])
    (hlb : lb ++ w.buffer = framesConcat lastE)
    (hch : List.Chain' (· < ·) (pre.map Prod.fst ++ [w.currentSegment]))
    (heff : WriterEffect w w1 []) (hbuf : w1.buffer = []) :
    w1.store = pre.map (fun q => (q.fst, framesConcat q.snd)) ++
      [(w.currentSegment, framesConcat lastE)] := by
  obtain ⟨c1, l1, s1, y1, m1, o1, b1⟩ := heff
  have hprelt := chain'_lt_mem_lt_last hch
  have hnodup := chain'_lt_nodup hch
  have hpreids : w.store.map Prod.fst = pre.map Prod.fst ++ [w.currentSegment] := by
    rw [hst, List.map_append, mapped_pre_fst]
    rfl
  have hcnotin : ¬ w.currentSegment ∈
      (pre.map (fun q => (q.fst, framesConcat q.snd))).map Prod.fst := by
    rw [mapped_pre_fst]
    intro hc
    exact absurd (hprelt _ hc) (by omega)
  have hsegcur : segBytes w.store w.currentSegment = some lb := by
    rw [hst, segBytes_append_right _ hcnotin]
    exact segBytes_cons_self []
  obtain ⟨cur2, hcur2, heq⟩ := b1 lb hsegcur
  rw [hbuf, List.append_nil, List.append_nil] at heq
  rw [hlb] at heq
  apply store_ext
  · rw [m1, hpreids, List.map_append, mapped_pre_fst]
    rfl
  · rw [m1, hpreids]
    exact hnodup
  · intro id hid
    rw [m1, hpreids] at hid
    rcases List.mem_append.mp hid with hmem | hmem
    · have hlt := hprelt id hmem
      have hne : id ≠ w.currentSegment := by omega
      rw [o1 id hne, hst]
      obtain ⟨cv, hcv⟩ := @segBytes_isSome_of_mem
        (pre.map (fun q => (q.fst, framesConcat q.snd))) id (by rw [mapped_pre_fst]; exact hmem)
      rw [segBytes_append_left _ hcv, segBytes_append_left _ hcv]
    · simp only [List.mem_singleton] at hmem
      subst hmem
      rw [hcur2, heq, segBytes_append_right _ hcnotin]
      rw [segBytes_cons_self]

theorem rotate_inv {opts : WALOptions} {w w2 : WalState}
    (hmax : 1 ≤ opts.maxSegments) (hinv : Inv opts w)
    (h : rotate opts w = .ok w2) :
    Inv opts w2 ∧ w2.lastLSN = w.lastLSN ∧
      w2.currentSegment = w.currentSegment + 1 := by
  obtain ⟨hclosed, pre, lb, lastE, L, hst, hlb, hch, hcnt, hok, hlsns, hL1, hLsum, hLmax, h64⟩ :=
    hinv
  unfold rotate at h
  cases hsy : writerSync w with
  | error er => rw [hsy] at h; simp at h
  | ok w1 =>
    rw [hsy] at h
    obtain ⟨heff, hbuf⟩ := writerSync_ok hsy
    have hshape := synced_store_shape hst hlb hch heff hbuf
    obtain ⟨c1, l1, s1, y1, m1, o1, b1⟩ := heff
    have hs1 : w1.sinkClosed = false := s1.trans hclosed
    try dsimp only at h
    rw [if_neg (by rw [hs1]; simp)] at h
    try dsimp only at h
    have hprelt := chain'_lt_mem_lt_last hch
    have hkeys1 : w1.store.map Prod.fst = pre.map Prod.fst ++ [w.currentSegment] := by
      rw [hshape, List.map_append, mapped_pre_fst]
      rfl
    have hch1 : List.Chain' (· < ·) (w1.store.map Prod.fst) := by
      rw [hkeys1]
      exact hch
    rw [listSegments_of_sorted _ hch1, hkeys1] at h
    have hlensegs : (pre.map Prod.fst ++ [w.currentSegment]).length = pre.length + 1 := by
      simp
    have hflatlen : L + ((pre.map Prod.snd).flatten ++ lastE).length = w.lastLSN + 1 := hLsum
    split_ifs at h with hdel
    · -- retention delete fires
      rw [hlensegs] at hdel
      have hdel2 : opts.maxSegments ≤ pre.length + 1 := hdel
      dsimp only at h
      cases hpre : pre with
      | nil =>
        subst hpre
        have hmax1 : opts.maxSegments = 1 := by
          simp at hcnt hdel2
          omega
        have hdelid : ((List.map Prod.fst ([] : List (Nat × List WAL_Entry))) ++
            [w.currentSegment]).headD 0 = w.currentSegment := rfl
        rw [hdelid] at h
        have hdelstore : deleteSegment w1.store w.currentSegment = [] := by
          rw [hshape]
          simp only [List.map_nil, List.nil_append]
          rw [deleteSegment_cons, if_pos rfl]
          rfl
        rw [hdelstore, c1] at h
        have hcreate : createSegment ([] : Store) (w.currentSegment + 1) =
            [(w.currentSegment + 1, [])] := rfl
        rw [hcreate] at h
        simp only [Except.ok.injEq] at h
        subst h
        simp only [List.map_nil, List.flatten_nil, List.nil_append] at hlsns hLsum hok
        refine ⟨⟨rfl, [], [], [], w.lastLSN + 1, ?_, ?_, ?_, ?_, ?_, ?_, ?_, ?_, ?_, ?_⟩, ?_, ?_⟩
        · simp
        · simp [framesConcat_nil]
        · simp
        · simp only [List.length_nil, c1]
          rw [hmax1]
          omega
        · intro e he
          simp at he
        · simp [lsnsOf]
        · omega
        · simp [l1]
        · intro hlt
          simp only [c1] at hlt
          omega
        · simpa [l1] using h64
        · simp [l1]
        · simp [c1]
      | cons p0 pre2 =>
        rw [hpre] at h hch hcnt hok hlsns hLsum hprelt hshape
        have hdelid : (((p0 :: pre2).map Prod.fst) ++ [w.currentSegment]).headD 0 = p0.fst := by
          simp
        rw [hdelid] at h
        have hnd := chain'_lt_nodup hch
        have hp0notin : ¬ p0.fst ∈ pre2.map Prod.fst ++ [w.currentSegment] := by
          simp only [List.map_cons, List.cons_append, List.nodup_cons] at hnd
          exact hnd.1
        have hdelstore : deleteSegment w1.store p0.fst =
            pre2.map (fun q => (q.fst, framesConcat q.snd)) ++
              [(w.currentSegment, framesConcat lastE)] := by
          rw [hshape]
          simp only [List.map_cons, List.cons_append]
          rw [deleteSegment_cons, if_pos rfl]
          apply deleteSegment_not_found
          intro hc
          apply hp0notin
          rw [List.map_append, mapped_pre_fst] at hc
          simpa using hc
        rw [hdelstore, c1] at h
        have hnextnotin : ¬ (w.currentSegment + 1) ∈
            (pre2.map (fun q => (q.fst, framesConcat q.snd)) ++
              [(w.currentSegment, framesConcat lastE)]).map Prod.fst := by
          rw [List.map_append, mapped_pre_fst]
          intro hc
          rcases List.mem_append.mp hc with hm | hm
          · have hlt := hprelt (w.currentSegment + 1) (by simp [hm])
            omega
          · simp at hm
        rw [createSegment_of_missing (segBytes_not_found hnextnotin)] at h
        simp only [Except.ok.injEq] at h
        subst h
        simp only [List.map_cons, List.length_cons] at hcnt
        simp only [List.map_cons, List.flatten_cons, List.append_assoc] at hlsns hLsum hok
        have hlsns2 : lsnsOf ((pre2.map Prod.snd).flatten ++ lastE) =
            List.range' (L + p0.snd.length) ((pre2.map Prod.snd).flatten ++ lastE).length := by
          apply @lsns_drop_first p0.snd
          simpa using hlsns
        have hdel3 : opts.maxSegments ≤ pre2.length + 2 := by
          rw [hpre] at hdel2
          simpa using hdel2
        refine ⟨⟨rfl, pre2 ++ [(w.currentSegment, lastE)], [], [],
          L + p0.snd.length, ?_, by simp [framesConcat_nil], ?_, ?_, ?_, ?_, ?_, ?_, ?_, ?_⟩,
          by simp [l1], by simp [c1]⟩
        · simp [List.map_append, List.append_assoc]
        · simp only [List.map_append, List.map_cons, List.map_nil, c1]
          apply chain'_lt_last_lt
          · exact (by simpa using hch : List.Chain' (· < ·)
              (p0.fst :: (pre2.map Prod.fst ++ [w.currentSegment]))).tail
          · omega
        · simp only [List.length_append, List.length_cons, List.length_nil]
          omega
        · intro e he
          apply hok
          simp only [List.map_append, List.map_cons, List.map_nil, List.flatten_append,
            List.flatten_cons, List.flatten_nil, List.append_nil, List.mem_append] at he ⊢
          tauto
        · simp only [List.map_append, List.map_cons, List.map_nil, List.flatten_append,
            List.flatten_cons, List.flatten_nil, List.append_nil]
          simpa using hlsns2
        · omega
        · simp only [List.map_append, List.map_cons, List.map_nil, List.flatten_append,
            List.flatten_cons, List.flatten_nil, List.append_nil, l1]
          have hlen : (p0.snd ++ ((pre2.map Prod.snd).flatten ++ lastE)).length =
              p0.snd.length + ((pre2.map Prod.snd).flatten ++ lastE).length := by simp
          rw [hlen] at hLsum
          simp only [List.length_append] at hLsum ⊢
          omega
        · intro hlt
          dsimp only at hlt
          omega
        · simp [l1]
          omega
    · -- no delete
      rw [hlensegs] at hdel
      have hnodel : pre.length + 1 < opts.maxSegments := by omega
      have hcfacts : pre.length + 1 = w.currentSegment + 1 ∧
          w.currentSegment + 1 < opts.maxSegments := by
        omega
      dsimp only at h
      rw [c1] at h
      have hnextnotin : ¬ (w.currentSegment + 1) ∈ w1.store.map Prod.fst := by
        rw [hkeys1]
        intro hc
        rcases List.mem_append.mp hc with hm | hm
        · have hlt := hprelt _ hm
          omega
        · simp at hm
      rw [createSegment_of_missing (segBytes_not_found hnextnotin), hshape] at h
      simp only [Except.ok.injEq] at h
      subst h
      refine ⟨⟨rfl, pre ++ [(w.currentSegment, lastE)], [], [], L, ?_,
        by simp [framesConcat_nil], ?_, ?_, ?_, ?_, ?_, ?_, ?_, ?_⟩,
        by simp [l1], by simp⟩
      · simp [List.map_append, List.append_assoc]
      · simp only [List.map_append, List.map_cons, List.map_nil, c1]
        exact chain'_lt_last_lt (by simpa using hch) (by omega)
      · simp only [List.length_append, List.length_cons, List.length_nil]
        omega
      · intro e he
        apply hok
        simp only [List.map_append, List.map_cons, List.map_nil, List.flatten_append,
          List.flatten_cons, List.flatten_nil, List.append_nil, List.mem_append] at he ⊢
        tauto
      · simp only [List.map_append, List.map_cons, List.map_nil, List.flatten_append,
          List.flatten_cons, List.flatten_nil, List.append_nil]
        simpa using hlsns
      · omega
      · simp only [List.map_append, List.map_cons, List.map_nil, List.flatten_append,
          List.flatten_cons, List.flatten_nil, List.append_nil, l1]
        simpa using hLsum
      · intro hlt
        dsimp only at hlt
        exact hLmax (by omega)
      · simp [l1]
        omega

theorem framesConcat_append_one (es : List WAL_Entry) (e : WAL_Entry) :
    framesConcat (es ++ [e]) = framesConcat es ++ frameEntry e := by
  simp [framesConcat]

theorem rotateIfNeeded_inv {opts : WALOptions} {w w1 : WalState}
    (hmax : 1 ≤ opts.maxSegments) (hinv : Inv opts w)
    (h : rotateIfNeeded opts w = .ok w1) :
    Inv opts w1 ∧ w1.lastLSN = w.lastLSN := by
  unfold rotateIfNeeded at h
  cases hseg : segBytes w.store w.currentSegment with
  | none => rw [hseg] at h; simp at h
  | some content =>
    rw [hseg] at h
    dsimp only at h
    split_ifs at h with hsz
    · simp only [Except.ok.injEq] at h
      subst h
      exact ⟨hinv, rfl⟩
    · obtain ⟨hi, hl, _⟩ := rotate_inv hmax hinv h
      exact ⟨hi, hl⟩

theorem writeEntry_assemble {opts : WALOptions} {w1 w2 : WalState} {e2 : WAL_Entry}
    (hinv1 : Inv opts w1) (h641 : w1.lastLSN + 1 < 2 ^ 64)
    (heffA : WriterEffect { w1 with lastLSN := w1.lastLSN + 1 } w2 (frameEntry e2))
    (he2lsn : e2.logSequenceNumber = w1.lastLSN + 1)
    (he2wf : EntryWF e2) (he2v : VerifyEntry e2 = true) : Inv opts w2 := by
  obtain ⟨hclosed1, pre, lb, lastE, L, hst, hlb, hch, hcnt, hok, hlsns, hL1, hLsum, hLmax,
    h64old⟩ := hinv1
  obtain ⟨c1, l1, s1, y1, m1, o1, b1⟩ := heffA
  have hprelt := chain'_lt_mem_lt_last hch
  have hcnotin : ¬ w1.currentSegment ∈
      (pre.map (fun q => (q.fst, framesConcat q.snd))).map Prod.fst := by
    rw [mapped_pre_fst]
    intro hc
    exact absurd (hprelt _ hc) (by omega)
  have hsegcur : segBytes w1.store w1.currentSegment = some lb := by
    rw [hst, segBytes_append_right _ hcnotin]
    exact segBytes_cons_self []
  obtain ⟨cur2, hcur2, heq⟩ := b1 lb hsegcur
  have hlb2 : cur2 ++ w2.buffer = framesConcat (lastE ++ [e2]) := by
    rw [heq, framesConcat_append_one, ← hlb]
    all_goals simp
  have hkeysw2 : w2.store.map Prod.fst = pre.map Prod.fst ++ [w1.currentSegment] := by
    rw [m1]
    show w1.store.map Prod.fst = _
    rw [hst, List.map_append, mapped_pre_fst]
    rfl
  have hstore2 : w2.store =
      pre.map (fun q => (q.fst, framesConcat q.snd)) ++ [(w1.currentSegment, cur2)] := by
    apply store_ext
    · rw [hkeysw2, List.map_append, mapped_pre_fst]
      rfl
    · rw [hkeysw2]
      exact chain'_lt_nodup hch
    · intro id hid
      rw [hkeysw2] at hid
      rcases List.mem_append.mp hid with hmem | hmem
      · have hlt := hprelt id hmem
        have hne : id ≠ w1.currentSegment := by omega
        have ho := o1 id hne
        rw [ho]
        show segBytes w1.store id = _
        rw [hst]
        obtain ⟨cv, hcv⟩ := @segBytes_isSome_of_mem
          (pre.map (fun q => (q.fst, framesConcat q.snd))) id
          (by rw [mapped_pre_fst]; exact hmem)
        rw [segBytes_append_left _ hcv, segBytes_append_left _ hcv]
      · simp only [List.mem_singleton] at hmem
        subst hmem
        rw [hcur2, segBytes_append_right _ hcnotin, segBytes_cons_self]
  have hnewlen : ((pre.map Prod.snd).flatten ++ (lastE ++ [e2])).length =
      ((pre.map Prod.snd).flatten ++ lastE).length + 1 := by
    simp only [List.length_append, List.length_cons, List.length_nil]
    omega
  refine ⟨?_, pre, cur2, lastE ++ [e2], L, ?_, hlb2, ?_, ?_, ?_, ?_, hL1, ?_, ?_, ?_⟩
  · rw [s1]
    exact hclosed1
  · rw [hstore2, c1]
  · rw [c1]
    exact hch
  · rw [c1]
    exact hcnt
  · intro e he
    rw [show (pre.map Prod.snd).flatten ++ (lastE ++ [e2]) =
      ((pre.map Prod.snd).flatten ++ lastE) ++ [e2] by simp] at he
    rcases List.mem_append.mp he with hm | hm
    · exact hok e hm
    · simp only [List.mem_singleton] at hm
      subst hm
      exact ⟨he2wf, he2v⟩
  · rw [show (pre.map Prod.snd).flatten ++ (lastE ++ [e2]) =
      ((pre.map Prod.snd).flatten ++ lastE) ++ [e2] by simp]
    unfold lsnsOf at hlsns ⊢
    rw [List.map_append, hlsns]
    have hone : List.map WAL_Entry.logSequenceNumber [e2] =
        List.range' (L + ((pre.map Prod.snd).flatten ++ lastE).length) 1 := by
      rw [List.range'_one]
      simp only [List.map_cons, List.map_nil]
      rw [he2lsn, hLsum]
    rw [hone, List.range'_append_1]
    congr 1
    simp
    omega
  · rw [l1]
    show L + ((pre.map Prod.snd).flatten ++ (lastE ++ [e2])).length = (w1.lastLSN + 1) + 1
    rw [hnewlen]
    omega
  · rw [c1]
    exact hLmax
  · rw [l1]
    show w1.lastLSN + 1 < 2 ^ 64
    exact h641

theorem writeEntry_inv {opts : WALOptions} {w : WalState} {data : List Nat} {ck : Bool}
    {lsn : Nat} {w2 : WalState}
    (hmax : 1 ≤ opts.maxSegments) (hinv : Inv opts w)
    (hdata : data.length < 2 ^ 32 - 64) (hbytes : ∀ b ∈ data, b < 256)
    (h64 : w.lastLSN + 1 < 2 ^ 64)
    (h : writeEntry opts w data ck = .ok (lsn, w2)) : Inv opts w2 := by
  unfold writeEntry at h
  cases hrn : rotateIfNeeded opts w with
  | error er => rw [hrn] at h; simp at h
  | ok w1 =>
    rw [hrn] at h
    obtain ⟨hinv1, hlsn1⟩ := rotateIfNeeded_inv hmax hinv hrn
    have h641 : w1.lastLSN + 1 < 2 ^ 64 := by rw [hlsn1]; exact h64
    have hmod : (w1.lastLSN + 1) % 2 ^ 64 = w1.lastLSN + 1 := Nat.mod_eq_of_lt h641
    dsimp only at h
    rw [hmod] at h
    have hwfN : EntryWF (NewEntry (w1.lastLSN + 1) data) := by
      refine ⟨h641, calculateCRC_lt data _ hbytes, hdata⟩
    have hvN : VerifyEntry (NewEntry (w1.lastLSN + 1) data) = true := by
      simp [VerifyEntry, NewEntry]
    cases hck : ck with
    | false =>
      rw [hck] at h
      simp only [Bool.false_eq_true, if_false] at h
      cases hwr : writerWriteEntry { w1 with lastLSN := w1.lastLSN + 1 }
          (NewEntry (w1.lastLSN + 1) data) with
      | error er => rw [hwr] at h; simp at h
      | ok w4 =>
        rw [hwr] at h
        simp only [Except.ok.injEq, Prod.mk.injEq] at h
        obtain ⟨-, hw4⟩ := h
        subst hw4
        exact writeEntry_assemble hinv1 h641 (writerWriteEntry_ok hwr) (by simp [NewEntry])
          hwfN hvN
    | true =>
      rw [hck] at h
      simp only [if_true] at h
      cases hsy : writerSync { w1 with lastLSN := w1.lastLSN + 1 } with
      | error er => rw [hsy] at h; simp at h
      | ok w3 =>
        rw [hsy] at h
        dsimp only at h
        cases hwr : writerWriteEntry w3
            { NewEntry (w1.lastLSN + 1) data with isCheckpoint := some true } with
        | error er => rw [hwr] at h; simp at h
        | ok w4 =>
          rw [hwr] at h
          simp only [Except.ok.injEq, Prod.mk.injEq] at h
          obtain ⟨-, hw4⟩ := h
          subst hw4
          have eA := (writerSync_ok hsy).1
          have eB := writerWriteEntry_ok hwr
          have heffA := writerEffect_trans eA eB
          simp only [List.nil_append] at heffA
          refine writeEntry_assemble hinv1 h641 heffA (by simp [NewEntry]) ?_ ?_
          · exact ⟨by simpa [NewEntry] using h641,
              by simpa [NewEntry] using calculateCRC_lt data (w1.lastLSN + 1) hbytes,
              by simpa [NewEntry] using hdata⟩
          · simp [VerifyEntry, NewEntry]

/-! ## Reachability gives the invariant -/

/-- Open on an empty directory produces the initial state, which satisfies the
invariant. -/
theorem open_empty_inv {opts : WALOptions} {w : WalState}
    (hmax : 1 ≤ opts.maxSegments) (h : Open [] opts = .ok w) : Inv opts w := by
  have h0 : Open [] opts =
      .ok { store := [(0, [])], currentSegment := 0, buffer := [], lastLSN := 0,
            sinkClosed := false, sinkSupportsSync := true, stableRequested := false } := rfl
  rw [h0] at h
  injection h with h
  subst h
  refine ⟨rfl, [], [], [], 1, rfl, rfl, by simp, ?_, ?_, by simp [lsnsOf], Nat.le_refl 1,
    by simp, fun _ => rfl, by norm_num⟩
  · simp only [List.length_nil, List.map_nil]
    omega
  · intro e he
    simp at he

/-- Every reachable state satisfies the invariant. -/
theorem reach_inv {opts : WALOptions} {w : WalState}
    (hmax : 1 ≤ opts.maxSegments) (h : Reach opts w) : Inv opts w := by
  induction h with
  | openEmpty w h0 => exact open_empty_inv hmax h0
  | step w data ck lsn w2 hr hdata hbytes h64 hw ih =>
    exact writeEntry_inv hmax ih hdata hbytes h64 hw

/-! ## Characterizing ReadAll on an invariant state -/

theorem readAllFrom_nil (st : Store) (acc : List WAL_Entry) :
    readAllFrom st [] acc = .ok acc := rfl

theorem readAllFrom_cons (st : Store) (id : Nat) (rest : List Nat) (acc : List WAL_Entry) :
    readAllFrom st (id :: rest) acc =
      match segBytes st id with
      | none => .error .statFailed
      | some content =>
        match readAllEntriesLoop content [] with
        | .ok es => readAllFrom st rest (acc ++ es)
        | .errRead _ => .error .readFailed
        | .errCorrupt _ => .error .corrupt
        | .crashed => .error .crashed := rfl

/-- A found segment is a pair of the store. -/
theorem segBytes_some_mem {st : Store} {id : Nat} {c : List Nat}
    (h : segBytes st id = some c) : (id, c) ∈ st := by
  unfold segBytes at h
  cases hf : List.find? (fun p => p.fst = id) st with
  | none => rw [hf] at h; simp at h
  | some q =>
    rw [hf] at h
    have hmem := List.mem_of_find?_eq_some hf
    have hprop := List.find?_some hf
    obtain ⟨a, b⟩ := q
    simp at h hprop
    subst hprop
    subst h
    exact hmem

/-- In a store of flushed segments with distinct ids, each segment is found
with its own frame stream. -/
theorem segBytes_mapped_mem : ∀ (pre : List (Nat × List WAL_Entry)),
    List.Nodup (pre.map Prod.fst) → ∀ q ∈ pre,
    segBytes (pre.map (fun r => (r.fst, framesConcat r.snd))) q.fst =
      some (framesConcat q.snd) := by
  intro pre
  induction pre with
  | nil => intro _ q hq; simp at hq
  | cons p tl ih =>
    intro hnd q hq
    obtain ⟨a, c⟩ := p
    rcases List.mem_cons.mp hq with hq1 | hq2
    · subst hq1
      exact segBytes_cons_self _
    · have hne : a ≠ q.fst := by
        intro hcontra
        simp only [List.map_cons, List.nodup_cons] at hnd
        exact hnd.1 (hcontra ▸ List.mem_map_of_mem Prod.fst hq2)
      rw [List.map_cons, segBytes_cons_other _ hne]
      exact ih (by simp only [List.map_cons, List.nodup_cons] at hnd; exact hnd.2) q hq2

/-- Walking the flushed pre-segments accumulates their entries. -/
theorem readAllFrom_pre (st : Store) :
    ∀ (qs : List (Nat × List WAL_Entry)) (ids2 : List Nat) (acc : List WAL_Entry),
      (∀ q ∈ qs, segBytes st q.fst = some (framesConcat q.snd)) →
      (∀ q ∈ qs, ∀ e ∈ q.snd, EntryWF e ∧ VerifyEntry e = true) →
      readAllFrom st (qs.map Prod.fst ++ ids2) acc =
        readAllFrom st ids2 (acc ++ (qs.map Prod.snd).flatten) := by
  intro qs
  induction qs with
  | nil =>
    intro ids2 acc _ _
    show readAllFrom st ids2 acc = readAllFrom st ids2 (acc ++ [])
    rw [List.append_nil]
  | cons q qs ih =>
    intro ids2 acc hseg hok
    obtain ⟨a, c⟩ := q
    rw [List.map_cons, List.cons_append, readAllFrom_cons, hseg (a, c) (by simp)]
    dsimp only
    rw [readAllEntriesLoop_frames_ok c (fun e he => (hok (a, c) (by simp) e he).1)
      (fun e he => (hok (a, c) (by simp) e he).2)]
    dsimp only
    rw [ih ids2 (acc ++ c) (fun p hp => hseg p (by simp [hp]))
      (fun p hp => hok p (by simp [hp]))]
    simp

theorem lsnsOf_append (a b : List WAL_Entry) : lsnsOf (a ++ b) = lsnsOf a ++ lsnsOf b := by
  simp [lsnsOf]

theorem lsnsOf_take (l : List WAL_Entry) (k : Nat) :
    lsnsOf (l.take k) = (lsnsOf l).take k := by
  simp [lsnsOf, List.map_take]

theorem lsnsOf_length (l : List WAL_Entry) : (lsnsOf l).length = l.length := by
  simp [lsnsOf]

/-- What a successful ReadAll returns on an invariant state: the record LSNs
are a contiguous range starting at the invariant base, which is 1 while no
retention deletion can have happened. -/
theorem readAll_inv {opts : WALOptions} {w : WalState} {es : List WAL_Entry}
    (hinv : Inv opts w) (hok : ReadAll w = .ok es) :
    ∃ L, 1 ≤ L ∧ lsnsOf es = List.range' L es.length ∧
      (w.currentSegment < opts.maxSegments → L = 1) := by
  obtain ⟨hclosed, pre, lb, lastE, L, hst, hlb, hch, hcnt, hEok, hlsns, hL1, hLsum, hLmax,
    h64⟩ := hinv
  refine ⟨L, hL1, ?_, hLmax⟩
  have hkeys : w.store.map Prod.fst = pre.map Prod.fst ++ [w.currentSegment] := by
    rw [hst, List.map_append, mapped_pre_fst]
    rfl
  have hprelt := chain'_lt_mem_lt_last hch
  have hcnotin : ¬ w.currentSegment ∈
      (pre.map (fun q => (q.fst, framesConcat q.snd))).map Prod.fst := by
    rw [mapped_pre_fst]
    intro hc
    exact absurd (hprelt _ hc) (by omega)
  have hsegcur : segBytes w.store w.currentSegment = some lb := by
    rw [hst, segBytes_append_right _ hcnotin]
    exact segBytes_cons_self []
  have hnd : List.Nodup (pre.map Prod.fst) := by
    have h2 := chain'_lt_nodup hch
    exact (List.nodup_append.mp h2).1
  have hsegpre : ∀ q ∈ pre, segBytes w.store q.fst = some (framesConcat q.snd) := by
    intro q hq
    rw [hst]
    exact segBytes_append_left _ (segBytes_mapped_mem pre hnd q hq)
  have hmemf : ∀ q ∈ pre, ∀ e ∈ q.snd, EntryWF e ∧ VerifyEntry e = true := by
    intro q hq e he
    apply hEok
    apply List.mem_append_left
    exact List.mem_flatten.mpr ⟨q.snd, List.mem_map_of_mem Prod.snd hq, he⟩
  have hlastok : ∀ e ∈ lastE, EntryWF e ∧ VerifyEntry e = true := by
    intro e he
    exact hEok e (List.mem_append_right _ he)
  unfold ReadAll at hok
  rw [listSegments_of_sorted w.store (by rw [hkeys]; exact hch), hkeys,
    readAllFrom_pre w.store pre [w.currentSegment] [] hsegpre hmemf,
    readAllFrom_cons, hsegcur] at hok
  dsimp only at hok
  cases hscan : readAllEntriesLoop lb [] with
  | ok res =>
    rw [hscan] at hok
    dsimp only at hok
    rw [readAllFrom_nil] at hok
    obtain ⟨t, ht⟩ := readAllEntriesLoop_prefix lastE lb w.buffer [] res
      (fun e he => (hlastok e he).1) (fun e he => (hlastok e he).2) hlb hscan
    simp only [List.nil_append] at ht
    subst ht
    have hes : (pre.map Prod.snd).flatten ++ lastE.take t = es := by
      simpa using hok
    have hsplit1 : lsnsOf (pre.map Prod.snd).flatten =
        List.range' L (pre.map Prod.snd).flatten.length ∧
        lsnsOf lastE =
          List.range' (L + (pre.map Prod.snd).flatten.length) lastE.length := by
      have h1 := hlsns
      rw [lsnsOf_append, List.length_append,
        Nat.add_comm (pre.map Prod.snd).flatten.length lastE.length,
        ← List.range'_append_1 L (pre.map Prod.snd).flatten.length lastE.length] at h1
      have h2 := List.append_inj h1 (by rw [lsnsOf_length]; simp)
      exact ⟨h2.1, h2.2⟩
    rw [← hes, lsnsOf_append, List.length_append, hsplit1.1, lsnsOf_take, hsplit1.2,
      take_range', List.length_take,
      Nat.add_comm (pre.map Prod.snd).flatten.length (min t lastE.length)]
    exact List.range'_append_1 L (pre.map Prod.snd).flatten.length (min t lastE.length)
  | errRead res => rw [hscan] at hok; exact absurd hok (by simp)
  | errCorrupt res => rw [hscan] at hok; exact absurd hok (by simp)
  | crashed => rw [hscan] at hok; exact absurd hok (by simp)

/-! ## The panic is unreachable on the coordinator's own frame streams -/

/-- Scanning a prefix of a stream of well-formed frames never reaches the
unmarshal panic: every frame body parses, and a torn tail surfaces as a read
error. -/
theorem readAllEntriesLoop_prefix_ne_crashed :
    ∀ (es : List WAL_Entry) (p q : List Nat) (acc : List WAL_Entry),
      (∀ e ∈ es, EntryWF e) → p ++ q = framesConcat es →
      readAllEntriesLoop p acc ≠ .crashed := by
  intro es
  induction es with
  | nil =>
    intro p q acc _ hpq
    rw [framesConcat_nil] at hpq
    have hp : p = [] := (List.append_eq_nil.mp hpq).1
    subst hp
    rw [raLoop_eof acc readEntryBytes_nil]
    simp
  | cons e tl ih =>
    intro p q acc hwf hpq
    rw [framesConcat_cons] at hpq
    by_cases hl : (frameEntry e).length ≤ p.length
    · obtain ⟨p2, hp2, hq2⟩ := append_split hpq hl
      subst hp2
      rw [raLoop_entry acc (readEntryBytes_frame e (hwf e (by simp)) _)]
      by_cases hv : VerifyEntry e
      · simp only [hv, if_true]
        exact ih p2 q (acc ++ [e]) (fun x hx => hwf x (by simp [hx])) hq2
      · simp [hv]
    · push_neg at hl
      have hpref : p = (frameEntry e).take p.length := by
        have h1 : (p ++ q).take p.length = p := by
          rw [List.take_append_of_le_length (Nat.le_refl _), List.take_length]
        rw [hpq, List.take_append_of_le_length (Nat.le_of_lt hl)] at h1
        exact h1.symm
      rcases readEntryBytes_strict_prefix e (hwf e (by simp)) p hl hpref with h | h | h
      · subst h
        rw [raLoop_eof acc readEntryBytes_nil]
        simp
      · rw [raLoop_shortPrefix acc h]
        simp
      · rw [raLoop_shortBody acc h]
        simp

/-- ReadAll never surfaces the panic when every segment file is a prefix of a
stream of well-formed frames. -/
theorem readAllFrom_ne_crashed (st : Store) :
    ∀ (ids : List Nat) (acc : List WAL_Entry),
      (∀ id ∈ ids, ∀ c, segBytes st id = some c →
        ∃ es t, (∀ e ∈ es, EntryWF e) ∧ c ++ t = framesConcat es) →
      readAllFrom st ids acc ≠ .error .crashed := by
  intro ids
  induction ids with
  | nil =>
    intro acc _
    rw [readAllFrom_nil]
    simp
  | cons id rest ih =>
    intro acc h
    rw [readAllFrom_cons]
    cases hseg : segBytes st id with
    | none => simp
    | some c =>
      dsimp only
      obtain ⟨es, t, hwf, hct⟩ := h id (by simp) c hseg
      cases hscan : readAllEntriesLoop c [] with
      | ok res => exact ih (acc ++ res) (fun i hi cc hcc => h i (by simp [hi]) cc hcc)
      | errRead res => simp
      | errCorrupt res => simp
      | crashed => exact absurd hscan (readAllEntriesLoop_prefix_ne_crashed es c t [] hwf hct)

/-! ## The claims -/

/-- C1: for runs of successful writes from an empty directory, the records a
successful ReadAll returns carry strictly consecutive LSNs (each exactly one
more than its predecessor); the first record has LSN 1 as long as the current
segment id is still below MaxSegments, i.e. no retention deletion can have
discarded the head of the log. (The unconditional "first LSN is 1" of the
original claim fails once retention deletes the oldest segment, see the
counterexample.) -/
theorem claim_c1 {opts : WALOptions} {w : WalState} {es : List WAL_Entry}
    (hmax : 1 ≤ opts.maxSegments) (hreach : Reach opts w)
    (hok : ReadAll w = .ok es) :
    List.Chain' (fun r1 r2 => r2.logSequenceNumber = r1.logSequenceNumber + 1) es ∧
      (w.currentSegment < opts.maxSegments →
        ∀ r0, es.head? = some r0 → r0.logSequenceNumber = 1) := by
  obtain ⟨L, hL1, hr, hLmax⟩ := readAll_inv (reach_inv hmax hreach) hok
  obtain ⟨hchain, hhead⟩ := chain_of_lsns_range hr
  exact ⟨hchain, fun hcs r0 hr0 => by rw [hhead r0 hr0, hLmax hcs]⟩

/-- Witness for C1 at a concrete reachable state (the freshly opened log). -/
theorem claim_c1_witness :
    List.Chain' (fun r1 r2 => r2.logSequenceNumber = r1.logSequenceNumber + 1)
        ([] : List WAL_Entry) ∧
      ((0 : Nat) < DefaultWALOptions.maxSegments →
        ∀ r0, ([] : List WAL_Entry).head? = some r0 → r0.logSequenceNumber = 1) :=
  claim_c1 (by decide)
    (Reach.openEmpty
      { store := [(0, [])], currentSegment := 0, buffer := [], lastLSN := 0,
        sinkClosed := false, sinkSupportsSync := true, stableRequested := false }
      (by decide))
    (by decide)

/-- Counterexample to C1 as stated: with MaxSegmentSize 1 and MaxSegments 2,
three writes from an empty directory rotate twice, retention deletes segment 0,
and ReadAll returns a log whose first (and only) record has LSN 2, not 1. -/
theorem claim_c1_cex :
    (match runFrom [] { maxSegmentSize := 1, maxSegments := 2, enableFsync := true }
        [.write [97], .write [98], .write [99]] with
      | .ok w => (ReadAll w).map lsnsOf
      | .error er => .error er) = .ok [2] := by decide

/-- C2: recovery keeps the LSN of the *last successfully framed* record of the
current segment, never consulting CRCs: loadLastLSN succeeds on any stream of
well-formed frames whatever their stored checksums. (The original claim's CRC
condition and its "bad CRC fails Open with ErrCorrupt" are refuted by the
counterexample below.) -/
theorem claim_c2 (es : List WAL_Entry) (w : WalState)
    (hwf : ∀ e ∈ es, EntryWF e)
    (hseg : segBytes w.store w.currentSegment = some (framesConcat es)) :
    loadLastLSN w = .ok { w with lastLSN := (lsnsOf es).getLastD w.lastLSN } := by
  unfold loadLastLSN
  rw [hseg]
  dsimp only
  rw [loadLastLSNLoop_frames_ok es w.lastLSN hwf]

/-- Witness for C2: a segment holding one frame whose stored CRC (1) is wrong;
recovery still succeeds and adopts its LSN 5. -/
theorem claim_c2_witness :
    loadLastLSN
      { store := [(0, framesConcat [⟨5, [97], 1, none⟩])], currentSegment := 0,
        buffer := [], lastLSN := 0, sinkClosed := false, sinkSupportsSync := true,
        stableRequested := false } =
      Except.ok
        { store := [(0, framesConcat [⟨5, [97], 1, none⟩])], currentSegment := 0,
          buffer := [], lastLSN := 5, sinkClosed := false, sinkSupportsSync := true,
          stableRequested := false } :=
  claim_c2 [⟨5, [97], 1, none⟩] _ (by decide) (by decide)

/-- Counterexample to C2 as stated: the sole record of the current segment has
a CRC that does not verify, yet Open succeeds (no ErrCorrupt) and sets
last_lsn to that record's LSN 5. -/
theorem claim_c2_cex :
    VerifyEntry ⟨5, [97], 1, none⟩ = false ∧
    (Open [(0, frameEntry ⟨5, [97], 1, none⟩)] DefaultWALOptions).map
      (fun (w : WalState) => w.lastLSN) = .ok 5 := by decide

/-- C3: what the torn-tail scenario actually does: truncating the *whole* last
frame of segment 0 (not 2 bytes of it) leaves a clean log; Open then succeeds
with last_lsn 2, the next write_entry returns LSN 3, and after a close
read_all yields three records a, b, d. (Truncating only the last 2 bytes
makes Open fail, see the counterexample.) -/
theorem claim_c3 :
    (match runFrom [] DefaultWALOptions
        [.write [97], .write [98], .write [99], .close] with
      | .ok w =>
        match segBytes w.store 0 with
        | some content =>
          match Open [(0, content.take (content.length -
              (frameEntry (NewEntry 3 [99])).length))] DefaultWALOptions with
          | .ok w2 =>
            match WriteEntry DefaultWALOptions w2 [100] with
            | .ok q =>
              match Close q.2 with
              | .ok w3 => (ReadAll w3).map (fun (es : List WAL_Entry) =>
                  (w2.lastLSN, q.1,
                    es.map (fun (e : WAL_Entry) => (e.logSequenceNumber, e.data))))
              | .error er => .error er
            | .error er => .error er
          | .error er => .error er
        | none => .error .statFailed
      | .error er => .error er) =
      .ok (2, 3, [(1, [97]), (2, [98]), (3, [100])]) := by decide

/-- Counterexample to C3 as stated: write 3 entries, close, truncate the last
2 bytes of segment 0; Open does NOT tolerate the torn tail: the short body
read is a non-EOF error and recovery fails (readFailed), instead of
succeeding with last_lsn 2. -/
theorem claim_c3_cex :
    (match runFrom [] DefaultWALOptions
        [.write [97], .write [98], .write [99], .close] with
      | .ok w =>
        match segBytes w.store 0 with
        | some content =>
          (Open [(0, content.take (content.length - 2))] DefaultWALOptions).map
            (fun (w2 : WalState) => w2.lastLSN)
        | none => .error .statFailed
      | .error er => .error er) = .error .readFailed := by decide

/-- C4: the code never consults EnableFsync: with enable_fsync = false, the
public Sync still flushes and then requests stable storage from the sink
(BinaryEntryWriter.Sync calls syncWriter.Sync() whenever the sink supports
it), contradicting the option's documented "flush only, never requests stable
storage". -/
theorem claim_c4 :
    (match Open []
        { maxSegmentSize := 4 * 1024 * 1024, maxSegments := 10,
          enableFsync := false } with
      | .ok w => (Sync w).map (fun (w2 : WalState) => w2.stableRequested)
      | .error er => .error er) = .ok true := by decide

/-- C5: what retention actually bounds: along runs from an empty directory the
segment count stays at most MaxSegments (the rotation that creates segment
n+1 deletes the oldest segment whenever the count reached the bound). The
original "for every starting state of the store" fails: rotate deletes at most
one segment, so a directory that already violates the bound keeps violating
it, see the counterexample. -/
theorem claim_c5 {opts : WALOptions} {w : WalState}
    (hmax : 1 ≤ opts.maxSegments) (hreach : Reach opts w) :
    (listSegments w.store).length ≤ opts.maxSegments := by
  obtain ⟨hclosed, pre, lb, lastE, L, hst, hlb, hch, hcnt, hEok, hlsns, hL1, hLsum, hLmax,
    h64⟩ := reach_inv hmax hreach
  have hkeys : w.store.map Prod.fst = pre.map Prod.fst ++ [w.currentSegment] := by
    rw [hst, List.map_append, mapped_pre_fst]
    rfl
  rw [listSegments_of_sorted w.store (by rw [hkeys]; exact hch), hkeys]
  simp only [List.length_append, List.length_map, List.length_cons, List.length_nil]
  omega

/-- Witness for C5 at a concrete reachable state (the freshly opened log). -/
theorem claim_c5_witness :
    (listSegments
      ({ store := [(0, [])], currentSegment := 0, buffer := [], lastLSN := 0,
         sinkClosed := false, sinkSupportsSync := true,
         stableRequested := false } : WalState).store).length ≤
      DefaultWALOptions.maxSegments :=
  claim_c5 (by decide)
    (Reach.openEmpty
      { store := [(0, [])], currentSegment := 0, buffer := [], lastLSN := 0,
        sinkClosed := false, sinkSupportsSync := true, stableRequested := false }
      (by decide))

/-- Counterexample to C5 as stated: a directory that starts with 3 segments
and MaxSegments 1. The write rotates (the current segment already holds one
frame and MaxSegmentSize is 1), rotation deletes only segment 0 (an `if`, not
the spec's `while`), and after the successful write the store still lists 3
segments, above the bound 1. -/
theorem claim_c5_cex :
    (match Open [(0, []), (1, []), (2, frameEntry (NewEntry 1 [97]))]
        { maxSegmentSize := 1, maxSegments := 1, enableFsync := true } with
      | .ok w =>
        match WriteEntry { maxSegmentSize := 1, maxSegments := 1, enableFsync := true }
            w [98] with
        | .ok q => (.ok (listSegments q.2.store).length : Except WErr Nat)
        | .error er => .error er
      | .error er => .error er) = .ok 3 := by decide

/-- C6: the checksum contract: the CRC set by record construction is
CRC-32/IEEE over the payload followed by exactly the 8 little-endian bytes of
the LSN (the streaming digest of calculateCRC equals the one-shot digest of
the concatenation), and VerifyEntry accepts every record built by NewEntry or
NewCheckpointEntry. -/
theorem claim_c6 (lsn : Nat) (data : List Nat) :
    calculateCRC data lsn = crc32 (data ++ leBytes 8 lsn) ∧
    (NewEntry lsn data).crc = crc32 (data ++ leBytes 8 lsn) ∧
    (NewCheckpointEntry lsn data).crc = crc32 (data ++ leBytes 8 lsn) ∧
    VerifyEntry (NewEntry lsn data) = true ∧
    VerifyEntry (NewCheckpointEntry lsn data) = true := by
  have hfold : calculateCRC data lsn = crc32 (data ++ leBytes 8 lsn) := by
    unfold calculateCRC crc32 crcUpdate
    rw [List.foldl_append]
  refine ⟨hfold, hfold, hfold, ?_, ?_⟩
  · simp [VerifyEntry, NewEntry]
  · simp [VerifyEntry, NewCheckpointEntry]

/-- C7: there is no ErrClosed and no closed-state gate: after Close, a
write_entry SUCCEEDS (it buffers the record and returns the next LSN 1),
ReadAll succeeds, and a second Close and a Sync fail -- but with the
underlying file-handle error (ioClosed), not a dedicated state error.
(The original "every public operation returns ErrClosed" is refuted by the
counterexample.) -/
theorem claim_c7 :
    (match runFrom [] DefaultWALOptions [.close] with
      | .ok w =>
        match WriteEntry DefaultWALOptions w [97] with
        | .ok q =>
          match ReadAll q.2 with
          | .ok es => (Except.ok (q.1, es.length,
              decide (Close q.2 = Except.error WErr.ioClosed),
              decide (Sync q.2 = Except.error WErr.ioClosed)) :
                Except WErr (Nat × Nat × Bool × Bool))
          | .error er => .error er
        | .error er => .error er
      | .error er => .error er) =
      .ok (1, 0, true, true) := by decide

/-- Counterexample to C7 as stated: WriteEntry after Close does not return any
error at all -- it succeeds and hands out LSN 1 (the record only ever sits in
the writer buffer). -/
theorem claim_c7_cex :
    (match runFrom [] DefaultWALOptions [.close] with
      | .ok w => (WriteEntry DefaultWALOptions w [97]).map (fun (q : Nat × WalState) => q.1)
      | .error er => .error er) = .ok 1 := by decide

/-- C8: on every state reachable by the coordinator's own writes, ReadAll
never escapes via the unmarshal panic (modelled as the distinguished outcome
`crashed`): all segment files are prefixes of streams of well-formed frames,
whose bodies always decode. (That a public read of foreign bytes -- a valid
length prefix over an undecodable body -- does panic is the counterexample.) -/
theorem claim_c8 (opts : WALOptions) {w : WalState}
    (hmax : 1 ≤ opts.maxSegments) (hreach : Reach opts w) :
    ReadAll w ≠ .error .crashed := by
  obtain ⟨hclosed, pre, lb, lastE, L, hst, hlb, hch, hcnt, hEok, hlsns, hL1, hLsum, hLmax,
    h64⟩ := reach_inv hmax hreach
  unfold ReadAll
  apply readAllFrom_ne_crashed
  intro id hid c hseg
  have hmem := segBytes_some_mem hseg
  rw [hst] at hmem
  rcases List.mem_append.mp hmem with hm | hm
  · obtain ⟨q, hq, hqe⟩ := List.mem_map.mp hm
    refine ⟨q.snd, [], ?_, ?_⟩
    · intro e he
      exact (hEok e (List.mem_append_left _
        (List.mem_flatten.mpr ⟨q.snd, List.mem_map_of_mem Prod.snd hq, he⟩))).1
    · have hc : c = framesConcat q.snd := by
        have := congrArg Prod.snd hqe
        simpa using this.symm
      rw [hc, List.append_nil]
  · simp only [List.mem_singleton, Prod.mk.injEq] at hm
    refine ⟨lastE, w.buffer, ?_, ?_⟩
    · intro e he
      exact (hEok e (List.mem_append_right _ he)).1
    · rw [hm.2]
      exact hlb

/-- Witness for C8 at a concrete reachable state (the freshly opened log). -/
theorem claim_c8_witness :
    ReadAll
      { store := [(0, [])], currentSegment := 0, buffer := [], lastLSN := 0,
        sinkClosed := false, sinkSupportsSync := true,
        stableRequested := false } ≠ .error .crashed :=
  claim_c8 DefaultWALOptions (by decide)
    (Reach.openEmpty
      { store := [(0, [])], currentSegment := 0, buffer := [], lastLSN := 0,
        sinkClosed := false, sinkSupportsSync := true, stableRequested := false }
      (by decide))

/-- Counterexample to C8 as stated: a segment holding the valid length prefix
1 over the undecodable body [255] makes Open (whose recovery scan reads the
entry) escape via the unmarshal panic, modelled as the distinguished outcome
`crashed` rather than an error kind of the taxonomy. -/
theorem claim_c8_cex :
    Open [(0, [1, 0, 0, 0, 255])] DefaultWALOptions = .error .crashed := by decide

/-- C9: on a log none of whose segments yields a checkpoint record,
ReadFromCheckpoint walks the segments exactly like ReadAll and returns the
same records. -/
theorem claim_c9 {w : WalState}
    (h : ∀ id ∈ listSegments w.store, ∀ c, segBytes w.store id = some c →
      streamNoCk c = true) :
    ReadFromCheckpoint w = ReadAll w :=
  readCkFrom_noCk w.store (listSegments w.store) [] h

/-- Witness for C9: a one-segment log holding a single plain record. -/
theorem claim_c9_witness :
    ReadFromCheckpoint
      { store := [(0, frameEntry (NewEntry 1 [97]))], currentSegment := 0,
        buffer := [], lastLSN := 1, sinkClosed := false, sinkSupportsSync := true,
        stableRequested := false } =
      ReadAll
        { store := [(0, frameEntry (NewEntry 1 [97]))], currentSegment := 0,
          buffer := [], lastLSN := 1, sinkClosed := false, sinkSupportsSync := true,
          stableRequested := false } :=
  claim_c9 (by
    intro id hid c hc
    have hl : listSegments [(0, frameEntry (NewEntry 1 [97]))] = [0] := by decide
    rw [hl] at hid
    have hid0 : id = 0 := by simpa using hid
    subst hid0
    have hx : some (frameEntry (NewEntry 1 [97])) = some c := hc
    injection hx with hx
    subst hx
    decide)

/-- C10: the checkpoint recovery scenario, end to end on the byte level: from
an empty directory with default options, open; write a, b; write checkpoint
cp; write c; close; open; read_from_checkpoint returns exactly the records
(lsn 3, "cp", checkpoint) and (lsn 4, "c", plain). -/
theorem claim_c10 :
    (match runFrom [] DefaultWALOptions
        [.write [97], .write [98], .writeCk [99, 112], .write [99], .close] with
      | .ok w =>
        match Open w.store DefaultWALOptions with
        | .ok w2 => (ReadFromCheckpoint w2).map (fun (es : List WAL_Entry) =>
            es.map (fun (e : WAL_Entry) => (e.logSequenceNumber, e.data, isCk e)))
        | .error er => .error er
      | .error er => .error er) =
      .ok [(3, [99, 112], true), (4, [99], false)] := by decide

end Wal
